import Mathlib

/-!
Verification of the Mirix memory-coordination engine against its
natural-language specification.  The definitions below are shallow
embeddings of the Python sources: pure functions become Lean functions,
database tables become lists in insertion order, Python exceptions become
explicit error values, and external collaborators (the embedding provider,
the cosine-distance extension, the blob store) become function parameters.
-/

namespace Mirix

/-- Python whitespace predicate used by `str.strip` (the ASCII whitespace
characters: space, tab, newline, carriage return, vertical tab, form feed). -/
def isPySpace (c : Char) : Bool :=
  c = ' ' || c = '\t' || c = '\n' || c = '\r' || c = '\x0b' || c = '\x0c'

/-- Python `str.strip()`: drop leading and trailing whitespace. -/
def pyStrip (s : String) : String :=
  ⟨(((s.data.dropWhile isPySpace).reverse).dropWhile isPySpace).reverse⟩

/-- Fuel-indexed core of Python `str.replace`: replaces every leftmost
non-overlapping occurrence of `old` by `new`; an empty `old` inserts `new`
before every character and once at the end, as Python does. -/
def pyReplaceAux (old new : List Char) : Nat → List Char → List Char
  | 0, s => s
  | _ + 1, [] => if old.isEmpty then new else []
  | fuel + 1, c :: rest =>
    if old.isEmpty then
      new ++ c :: pyReplaceAux old new fuel rest
    else if old.isPrefixOf (c :: rest) then
      new ++ pyReplaceAux old new fuel ((c :: rest).drop old.length)
    else
      c :: pyReplaceAux old new fuel rest

/-- Python `s.replace(old, new)`. -/
def pyReplace (s old new : String) : String :=
  ⟨pyReplaceAux old.data new.data (s.data.length + 1) s.data⟩

/-- Contiguous-sublist test on lists of characters. -/
def listInfixOf (needle : List Char) : List Char → Bool
  | [] => needle.isEmpty
  | c :: rest => needle.isPrefixOf (c :: rest) || listInfixOf needle rest

/-- Python `needle in hay` on strings: substring test. -/
def pySubstr (needle hay : String) : Bool :=
  listInfixOf needle.data hay.data

/-- Python `str.lower()` (ASCII case folding suffices for the sources). -/
def pyLower (s : String) : String :=
  ⟨s.data.map Char.toLower⟩

/-- SQL `LOWER(field) CONTAINS LOWER(query)` as used by the string-match
search branches. -/
def lowerContains (field q : String) : Bool :=
  listInfixOf (pyLower q).data (pyLower field).data

/-- Error taxonomy of the specification.  In the Python sources
`invariantViolation` is raised as a `ValueError`, `notFound` as
`NoResultFound`, and `typeError` as the `TypeError` Python raises for a call
missing a required argument. -/
inductive MemErr where
  | invariantViolation (msg : String)
  | notFound (msg : String)
  | typeError (msg : String)
deriving DecidableEq, Repr

/-! ## Core memory blocks -/

/-- A core memory block: a label (persona, human, ...) with free text. -/
structure Block where
  label : String
  value : String
deriving DecidableEq, Repr

/-- Modelled from the spec: the core memory holds one block per label
(`mirix/schemas/memory.py` is not among the sources); `get_block` looks a
block up by its label. -/
def getBlock (m : List Block) (label : String) : Option Block :=
  m.find? (fun b => b.label == label)

/-- Modelled from the spec: `update_block_value` rewrites the value of the
block carrying the given label. -/
def updateBlockValue (m : List Block) (label v : String) : List Block :=
  m.map (fun b => if b.label == label then { b with value := v } else b)

/-- `core_memory_append` from
`mirix/functions/function_sets/memory_tools.py`: read the block, append a
newline plus the content, strip the result, write it back; the tool call
produces no response (`none`). -/
def core_memory_append (m : List Block) (label content : String) :
    Except MemErr (List Block × Option String) :=
  match getBlock m label with
  | none => .error (.notFound label)
  | some b =>
    .ok (updateBlockValue m label (pyStrip (b.value ++ "\n" ++ content)), none)

/-- `core_memory_replace` from
`mirix/functions/function_sets/memory_tools.py`: require `old_content` to be
a substring of the current value (else raise), then replace it. -/
def core_memory_replace (m : List Block) (label oldContent newContent : String) :
    Except MemErr (List Block × Option String) :=
  match getBlock m label with
  | none => .error (.notFound label)
  | some b =>
    if pySubstr oldContent b.value then
      .ok (updateBlockValue m label (pyReplace b.value oldContent newContent), none)
    else
      .error (.invariantViolation
        ("Old content '" ++ oldContent ++ "' not found in memory block '" ++ label ++ "'"))

/-- Claim C8: for every core block label present in memory and every
content string, `core_memory_append` sets the block's new value to exactly
the old value, a newline, and the content, stripped of leading and trailing
whitespace, and returns no response. -/
theorem core_memory_append_spec (m : List Block) (label content : String)
    (b : Block) (h : getBlock m label = some b) :
    core_memory_append m label content =
      .ok (updateBlockValue m label (pyStrip (b.value ++ "\n" ++ content)), none) := by
  simp [core_memory_append, h]

/-- Witness for C8 at a concrete memory: appending to a persona block. -/
theorem core_memory_append_spec_witness :
    getBlock [⟨"persona", "helpful assistant"⟩] "persona" =
      some ⟨"persona", "helpful assistant"⟩ ∧
    pyStrip ("helpful assistant" ++ "\n" ++ " be kind ") = "helpful assistant\n be kind" ∧
    core_memory_append [⟨"persona", "helpful assistant"⟩] "persona" " be kind " =
      .ok (updateBlockValue [⟨"persona", "helpful assistant"⟩] "persona"
        (pyStrip ("helpful assistant" ++ "\n" ++ " be kind ")), none) :=
  ⟨by decide, by decide,
    core_memory_append_spec _ _ _ ⟨"persona", "helpful assistant"⟩ (by decide)⟩

/-- Claim C4: `core_memory_replace` requires the old content to be an exact
substring of the block's current value and fails with the invariant
violation otherwise; when it is a substring, it is replaced in place. -/
theorem core_memory_replace_spec (m : List Block) (label oldC newC : String)
    (b : Block) (h : getBlock m label = some b) :
    (pySubstr oldC b.value = true →
      core_memory_replace m label oldC newC =
        .ok (updateBlockValue m label (pyReplace b.value oldC newC), none)) ∧
    (pySubstr oldC b.value = false →
      core_memory_replace m label oldC newC =
        .error (.invariantViolation
          ("Old content '" ++ oldC ++ "' not found in memory block '" ++ label ++ "'"))) := by
  constructor
  · intro hs
    simp [core_memory_replace, h, hs]
  · intro hs
    simp [core_memory_replace, h, hs]

/-- Witness for C4: replacing "helpful" by "xxxxx" in "helpful assistant"
yields "xxxxx assistant", and a non-substring old content fails. -/
theorem core_memory_replace_spec_witness :
    getBlock [⟨"persona", "helpful assistant"⟩] "persona" =
      some ⟨"persona", "helpful assistant"⟩ ∧
    pyReplace "helpful assistant" "helpful" "xxxxx" = "xxxxx assistant" ∧
    core_memory_replace [⟨"persona", "helpful assistant"⟩] "persona" "helpful" "xxxxx" =
      .ok (updateBlockValue [⟨"persona", "helpful assistant"⟩] "persona"
        (pyReplace "helpful assistant" "helpful" "xxxxx"), none) ∧
    core_memory_replace [⟨"persona", "helpful assistant"⟩] "persona" "missing" "zzz" =
      .error (.invariantViolation
        ("Old content '" ++ "missing" ++ "' not found in memory block '" ++ "persona" ++ "'")) :=
  ⟨by decide, by decide,
    (core_memory_replace_spec _ _ _ _ ⟨"persona", "helpful assistant"⟩ (by decide)).1 (by decide),
    (core_memory_replace_spec _ _ _ _ ⟨"persona", "helpful assistant"⟩ (by decide)).2 (by decide)⟩

/-! ## Episodic memory: replace (dedup) -/

/-- An episodic event row as stored (`mirix/orm/episodic_event.py`):
only the fields the claims touch are modelled; timestamps stay opaque. -/
structure EpisodicEvent where
  id : String
  occurred_at : String
  event_type : String
  actor : String
  summary : String
  details : String
deriving DecidableEq, Repr

/-- The fields an LLM supplies for a new episodic event
(`EpisodicEventForLLM`); the store assigns the id. -/
structure EpisodicEventForLLM where
  occurred_at : String
  event_type : String
  actor : String
  summary : String
  details : String
deriving DecidableEq, Repr

abbrev EpisodicStore := List EpisodicEvent

/-- Modelled from the spec: hard delete of the row carrying the given id;
`NotFound` when the id is absent (the episodic manager file is not among
the sources; this mirrors the other managers' `delete_*_by_id`). -/
def storeDeleteById {α : Type} (idOf : α → String) (st : List α) (k : String) :
    Except MemErr (List α) :=
  if st.any (fun e => idOf e == k) then
    .ok (st.filter (fun e => idOf e != k))
  else
    .error (.notFound k)

/-- Sequential deletion loop: each delete commits before the next runs, so
an error in the middle leaves the earlier deletions in place. -/
def storeDeleteLoop {α : Type} (idOf : α → String) :
    List α → List String → List α × Option MemErr
  | st, [] => (st, none)
  | st, k :: ks =>
    match storeDeleteById idOf st k with
    | .ok st' => storeDeleteLoop idOf st' ks
    | .error e => (st, some e)

/-- Modelled from the spec: `get_episodic_event_by_id`, `NotFound` when the
id is absent. -/
def get_episodic_event_by_id (st : EpisodicStore) (eid : String) :
    Except MemErr EpisodicEvent :=
  match st.find? (fun e => e.id == eid) with
  | some e => .ok e
  | none => .error (.notFound eid)

/-- The lookup loop at the top of `episodic_memory_replace`: every listed id
must resolve before anything is deleted. -/
def checkEvents (st : EpisodicStore) : List String → Option MemErr
  | [] => none
  | eid :: rest =>
    match get_episodic_event_by_id st eid with
    | .ok _ => checkEvents st rest
    | .error e => some e

/-- Modelled from the spec: `insert_event` persists a new event at the end
of the store under a freshly generated id. -/
def insert_event (st : EpisodicStore) (fresh : String) (item : EpisodicEventForLLM) :
    EpisodicStore :=
  st ++ [⟨fresh, item.occurred_at, item.event_type, item.actor, item.summary, item.details⟩]

/-- The insertion loop of `episodic_memory_replace`; `fresh i` is the id
generated for the i-th new item. -/
def insertEventsFrom (fresh : Nat → String) (i : Nat) :
    EpisodicStore → List EpisodicEventForLLM → EpisodicStore
  | st, [] => st
  | st, it :: its => insertEventsFrom fresh (i + 1) (insert_event st (fresh i) it) its

/-- The rows `insertEventsFrom` appends. -/
def newEvents (fresh : Nat → String) (i : Nat) :
    List EpisodicEventForLLM → List EpisodicEvent
  | [] => []
  | it :: its =>
    ⟨fresh i, it.occurred_at, it.event_type, it.actor, it.summary, it.details⟩ ::
      newEvents fresh (i + 1) its

/-- `episodic_memory_replace` from
`mirix/functions/function_sets/memory_tools.py`: look every listed event up
(aborting on `NotFound`), delete them all one by one, then insert the new
items. -/
def episodic_memory_replace (fresh : Nat → String) (st : EpisodicStore)
    (event_ids : List String) (new_items : List EpisodicEventForLLM) :
    EpisodicStore × Option MemErr :=
  match checkEvents st event_ids with
  | some e => (st, some e)
  | none =>
    match storeDeleteLoop (fun e => e.id) st event_ids with
    | (st', some e) => (st', some e)
    | (st', none) => (insertEventsFrom fresh 0 st' new_items, none)

/-- Modelled from the spec: the episodic `string_match` search over the
summary field — `LOWER(summary) CONTAINS LOWER(query)`, ordered by recency,
first `limit` rows. -/
def list_episodic_string_match_summary (st : EpisodicStore) (q : String) (limit : Nat) :
    List EpisodicEvent :=
  ((st.filter (fun e => lowerContains e.summary q)).reverse).take limit

/-- The deletion loop removes exactly the listed rows when the ids are
distinct and all present. -/
theorem storeDeleteLoop_eq {α : Type} (idOf : α → String) (ids : List String)
    (st : List α) (hnd : ids.Nodup)
    (hpres : ∀ k ∈ ids, st.any (fun e => idOf e == k) = true) :
    storeDeleteLoop idOf st ids =
      (st.filter (fun e => !(ids.contains (idOf e))), none) := by
  induction ids generalizing st with
  | nil => simp [storeDeleteLoop]
  | cons k ks ih =>
    have hk : st.any (fun e => idOf e == k) = true := hpres k (by simp)
    have hrest : ∀ k' ∈ ks, (st.filter (fun e => idOf e != k)).any
        (fun e => idOf e == k') = true := by
      intro k' hk'
      have hne : k' ≠ k := by
        rintro rfl
        exact (List.nodup_cons.mp hnd).1 hk'
      have h1 : st.any (fun e => idOf e == k') = true := hpres k' (by simp [hk'])
      rw [List.any_eq_true] at h1 ⊢
      obtain ⟨e, he, heq⟩ := h1
      refine ⟨e, List.mem_filter.mpr ⟨he, ?_⟩, heq⟩
      have : idOf e = k' := by simpa using heq
      simp [this, hne]
    have hnd' : ks.Nodup := (List.nodup_cons.mp hnd).2
    simp only [storeDeleteLoop, storeDeleteById, hk, if_pos]
    rw [ih _ hnd' hrest]
    rw [List.filter_filter]
    congr 1
    apply List.filter_congr
    intro e _
    by_cases h1 : idOf e = k <;> simp [h1]

/-- The insertion loop appends exactly the new rows. -/
theorem insertEventsFrom_eq (fresh : Nat → String) (items : List EpisodicEventForLLM)
    (i : Nat) (st : EpisodicStore) :
    insertEventsFrom fresh i st items = st ++ newEvents fresh i items := by
  induction items generalizing i st with
  | nil => simp [insertEventsFrom, newEvents]
  | cons it its ih =>
    simp [insertEventsFrom, newEvents, insert_event, ih]

/-- Every listed id is found when present. -/
theorem checkEvents_none (st : EpisodicStore) (ids : List String)
    (hpres : ∀ k ∈ ids, st.any (fun e => e.id == k) = true) :
    checkEvents st ids = none := by
  induction ids with
  | nil => rfl
  | cons k ks ih =>
    have hk := hpres k (by simp)
    rw [List.any_eq_true] at hk
    obtain ⟨e, he, heq⟩ := hk
    have hfind : ∃ e', st.find? (fun e => e.id == k) = some e' := by
      have : (st.find? (fun e => e.id == k)).isSome := List.find?_isSome.mpr ⟨e, he, heq⟩
      exact Option.isSome_iff_exists.mp this
    obtain ⟨e', hfind⟩ := hfind
    simp only [checkEvents, get_episodic_event_by_id, hfind]
    exact ih (fun k' hk' => hpres k' (by simp [hk']))

/-- Claim C5: `episodic_memory_replace` deletes exactly the events with the
listed ids and inserts exactly the new items (appended with fresh ids), when
the listed ids are distinct and all present. -/
theorem episodic_memory_replace_spec (fresh : Nat → String) (st : EpisodicStore)
    (event_ids : List String) (new_items : List EpisodicEventForLLM)
    (hnd : event_ids.Nodup)
    (hpres : ∀ k ∈ event_ids, st.any (fun e => e.id == k) = true) :
    episodic_memory_replace fresh st event_ids new_items =
      (st.filter (fun e => !(event_ids.contains e.id)) ++ newEvents fresh 0 new_items,
        none) := by
  simp only [episodic_memory_replace, checkEvents_none st event_ids hpres,
    storeDeleteLoop_eq (fun e => e.id) event_ids st hnd hpres,
    insertEventsFrom_eq]

/-- Witness for C5 — the dedup scenario: two events sharing the summary
"user opened terminal" are replaced by one new event, after which the
string-match search on "terminal" returns exactly one item. -/
theorem episodic_memory_replace_spec_witness :
    ([ "e1", "e2" ] : List String).Nodup ∧
    (∀ k ∈ (["e1", "e2"] : List String),
      ([⟨"e1", "t1", "activity", "user", "user opened terminal", "d1"⟩,
        ⟨"e2", "t2", "activity", "user", "user opened terminal", "d2"⟩] :
        EpisodicStore).any (fun e => e.id == k) = true) ∧
    episodic_memory_replace (fun _ => "e3")
      [⟨"e1", "t1", "activity", "user", "user opened terminal", "d1"⟩,
       ⟨"e2", "t2", "activity", "user", "user opened terminal", "d2"⟩]
      ["e1", "e2"] [⟨"t3", "activity", "user", "user opened terminal", "d3"⟩] =
      (([⟨"e1", "t1", "activity", "user", "user opened terminal", "d1"⟩,
         ⟨"e2", "t2", "activity", "user", "user opened terminal", "d2"⟩] :
         EpisodicStore).filter (fun e => !((["e1", "e2"] : List String).contains e.id)) ++
        newEvents (fun _ => "e3") 0 [⟨"t3", "activity", "user", "user opened terminal", "d3"⟩],
        none) ∧
    list_episodic_string_match_summary
      (newEvents (fun _ => "e3") 0 [⟨"t3", "activity", "user", "user opened terminal", "d3"⟩])
      "terminal" 50 =
      [⟨"e3", "t3", "activity", "user", "user opened terminal", "d3"⟩] :=
  ⟨by decide, by decide,
    episodic_memory_replace_spec _ _ _ _ (by decide) (by decide),
    by decide⟩

/-! ## Knowledge vault: update is never atomic -/

/-- A knowledge-vault row (`mirix/orm/knowledgevault.py`). -/
structure KnowledgeVaultItem where
  id : String
  entry_type : String
  source : String
  sensitivity : String
  secret_value : String
  description : String
deriving DecidableEq, Repr

abbrev KVStore := List KnowledgeVaultItem

/-- The fields an LLM supplies for a knowledge-vault item
(`KnowledgeVaultItemBase`). -/
structure KnowledgeVaultItemBase where
  entry_type : String
  source : String
  sensitivity : String
  secret_value : String
  description : String
deriving DecidableEq, Repr

/-- The keyword arguments at a call of `insert_knowledge`; `description` is
a required parameter of the function, so `none` models the keyword being
absent at the call site. -/
structure InsertKnowledgeKwargs where
  entry_type : String
  source : String
  sensitivity : String
  secret_value : String
  description : Option String
deriving DecidableEq, Repr

/-- `KnowledgeVaultManager.insert_knowledge`
(`mirix/services/knowledge_vault_manager.py`): `description` is required; a
call without it fails the way Python raises `TypeError` for a missing
required argument, before anything is persisted. -/
def insert_knowledge (st : KVStore) (fresh : String) (kw : InsertKnowledgeKwargs) :
    Except MemErr KVStore :=
  match kw.description with
  | none => .error (.typeError "insert_knowledge missing required argument description")
  | some d =>
    .ok (st ++ [⟨fresh, kw.entry_type, kw.source, kw.sensitivity, kw.secret_value, d⟩])

/-- The insertion loop of `knowledge_vault_update`: the source calls
`insert_knowledge` with `entry_type`, `source`, `sensitivity`,
`secret_value` and `organization_id` only — the `description` keyword is
absent. -/
def kvInsertLoop (fresh : Nat → String) (i : Nat) :
    KVStore → List KnowledgeVaultItemBase → KVStore × Option MemErr
  | st, [] => (st, none)
  | st, item :: rest =>
    match insert_knowledge st (fresh i)
        ⟨item.entry_type, item.source, item.sensitivity, item.secret_value, none⟩ with
    | .error e => (st, some e)
    | .ok st' => kvInsertLoop fresh (i + 1) st' rest

/-- `knowledge_vault_update` from
`mirix/functions/function_sets/memory_tools.py`: delete every listed id,
then insert the new items (each insert call lacking `description`). -/
def knowledge_vault_update (fresh : Nat → String) (st : KVStore)
    (old_ids : List String) (new_items : List KnowledgeVaultItemBase) :
    KVStore × Option MemErr :=
  match storeDeleteLoop (fun e => e.id) st old_ids with
  | (st', some e) => (st', some e)
  | (st', none) => kvInsertLoop fresh 0 st' new_items

/-- Claim C10: with non-empty `new_items`, `knowledge_vault_update` fails
with the missing-`description` error, and only after every listed id has
already been deleted; with empty `new_items` it completes as a pure
delete. -/
theorem knowledge_vault_update_never_inserts (fresh : Nat → String) (st : KVStore)
    (old_ids : List String) (new_items : List KnowledgeVaultItemBase)
    (hnd : old_ids.Nodup)
    (hpres : ∀ k ∈ old_ids, st.any (fun e => e.id == k) = true) :
    (new_items ≠ [] →
      knowledge_vault_update fresh st old_ids new_items =
        (st.filter (fun e => !(old_ids.contains e.id)),
          some (.typeError "insert_knowledge missing required argument description"))) ∧
    knowledge_vault_update fresh st old_ids [] =
      (st.filter (fun e => !(old_ids.contains e.id)), none) := by
  constructor
  · intro hne
    match new_items with
    | [] => exact absurd rfl hne
    | item :: rest =>
      simp only [knowledge_vault_update, storeDeleteLoop_eq (fun e => e.id) old_ids st hnd hpres,
        kvInsertLoop, insert_knowledge]
  · simp only [knowledge_vault_update, storeDeleteLoop_eq (fun e => e.id) old_ids st hnd hpres,
      kvInsertLoop]

/-- Witness for C10: an update of one stored secret fails after the delete
went through, leaving the vault empty; the pure delete succeeds. -/
theorem knowledge_vault_update_never_inserts_witness :
    (["kv1"] : List String).Nodup ∧
    (∀ k ∈ (["kv1"] : List String),
      ([⟨"kv1", "credential", "chat", "high", "hunter2", "old password"⟩] :
        KVStore).any (fun e => e.id == k) = true) ∧
    (([⟨"a", "b", "c", "d", "e"⟩] : List KnowledgeVaultItemBase) ≠ [] →
      knowledge_vault_update (fun _ => "kv2")
        [⟨"kv1", "credential", "chat", "high", "hunter2", "old password"⟩]
        ["kv1"] [⟨"a", "b", "c", "d", "e"⟩] =
        (([⟨"kv1", "credential", "chat", "high", "hunter2", "old password"⟩] :
          KVStore).filter (fun e => !((["kv1"] : List String).contains e.id)),
          some (.typeError "insert_knowledge missing required argument description"))) ∧
    knowledge_vault_update (fun _ => "kv2")
      [⟨"kv1", "credential", "chat", "high", "hunter2", "old password"⟩] ["kv1"] [] =
      (([⟨"kv1", "credential", "chat", "high", "hunter2", "old password"⟩] :
        KVStore).filter (fun e => !((["kv1"] : List String).contains e.id)), none) :=
  ⟨by decide, by decide,
    (knowledge_vault_update_never_inserts _ _ _ _ (by decide) (by decide)).1,
    (knowledge_vault_update_never_inserts (fun _ => "kv2") _ _
      ([⟨"a", "b", "c", "d", "e"⟩] : List KnowledgeVaultItemBase) (by decide) (by decide)).2⟩

/-! ## Temporary message accumulator -/

/-- An image slot in a buffered observation: either the pending-upload
placeholder dict (identified, as in the source, by the Python object id) or
an already-resolved cloud file reference. -/
inductive FileRef where
  | pending (pid : Nat)
  | uploaded (ref : String)
deriving DecidableEq, Repr

/-- One buffered observation
(`mirix/agent/temporary_message_accumulator.py`): image slots (possibly
absent), audio segments (opaque), and the text message. -/
structure TempItem where
  image_uris : Option (List FileRef)
  audio_segments : Option (List String)
  message : String
deriving DecidableEq, Repr

/-- The accumulator state the claims touch: the `(timestamp, item)` buffer,
the upload-start-time tracking map, the timeout, the flush limit and the
`needs_upload` flag (true exactly for the GEMINI models). -/
structure AccumState where
  temporary_messages : List (ℤ × TempItem)
  upload_start_times : List (Nat × ℤ)
  upload_timeout_seconds : ℤ
  temporary_message_limit : Nat
  needs_upload : Bool
deriving DecidableEq

/-- Python truthiness of `item['image_uris']`: present and non-empty. -/
def truthyImages (it : TempItem) : Option (List FileRef) :=
  match it.image_uris with
  | some (r :: rs) => some (r :: rs)
  | _ => none

/-- The placeholder ids tracked as timed out: pending for strictly longer
than `upload_timeout_seconds`. -/
def timedOutIds (s : AccumState) (now : ℤ) : List Nat :=
  (s.upload_start_times.filter (fun p => s.upload_timeout_seconds < now - p.2)).map (fun p => p.1)

/-- Whether an observation holds a pending placeholder from the given
timed-out list. -/
def itemHasTimedOut (t : List Nat) (it : TempItem) : Bool :=
  match truthyImages it with
  | none => false
  | some refs => refs.any (fun r =>
      match r with
      | .pending pid => t.contains pid
      | .uploaded _ => false)

/-- Whether an observation holds the pending placeholder `pid`. -/
def itemMentionsPending (pid : Nat) (it : TempItem) : Bool :=
  match truthyImages it with
  | none => false
  | some refs => refs.any (fun r =>
      match r with
      | .pending p => p == pid
      | .uploaded _ => false)

/-- `_detect_and_cleanup_timed_out_uploads`: drop every buffer entry holding
a timed-out pending placeholder, and drop the timed-out ids from the
tracking map.  (The source's early return on an empty timed-out list
coincides with filtering by the empty list.) -/
def detect_and_cleanup_timed_out_uploads (now : ℤ) (s : AccumState) : AccumState :=
  let t := timedOutIds s now
  { s with
    temporary_messages := s.temporary_messages.filter (fun e => !(itemHasTimedOut t e.2)),
    upload_start_times := s.upload_start_times.filter (fun p => !(t.contains p.1)) }

/-- The per-entry resolution pass of `should_absorb_content`: walk the image
slots in order; a pending slot is resolved through
`upload_manager.try_resolve_upload` (the `resolve` oracle), and the walk
aborts at the first still-pending slot. -/
def resolveRefs (resolve : Nat → Option String) : List FileRef → Option (List FileRef)
  | [] => some []
  | .pending pid :: rest =>
    match resolve pid with
    | none => none
    | some u => (resolveRefs resolve rest).map (fun l => .uploaded u :: l)
  | .uploaded u :: rest => (resolveRefs resolve rest).map (fun l => .uploaded u :: l)

/-- An observation with every image slot resolved, or `none` if it still
has a pending upload. -/
def itemReady (resolve : Nat → Option String) (it : TempItem) : Option TempItem :=
  match truthyImages it with
  | none => some it
  | some refs =>
    match resolveRefs resolve refs with
    | none => none
    | some rs => some { it with image_uris := some rs }

/-- The temporal-order scan of `should_absorb_content`: collect resolved
entries from the front and stop dead at the first entry with a pending
upload. -/
def scanReady (resolve : Nat → Option String) : List (ℤ × TempItem) → List (ℤ × TempItem)
  | [] => []
  | (ts, it) :: rest =>
    match itemReady resolve it with
    | none => []
    | some it' => (ts, it') :: scanReady resolve rest

/-- The post-sweep part of `should_absorb_content` for uploading models:
return the ready scan exactly when it reaches the flush limit. -/
def shouldAbsorbGate (resolve : Nat → Option String) (s : AccumState) :
    List (ℤ × TempItem) :=
  let ready := scanReady resolve s.temporary_messages
  if s.temporary_message_limit ≤ ready.length then ready else []

/-- `should_absorb_content`: for uploading models, run the timeout sweep
first, then the temporal-order scan; for non-uploading models every
buffered message is ready once the limit is reached. -/
def should_absorb_content (resolve : Nat → Option String) (now : ℤ) (s : AccumState) :
    List (ℤ × TempItem) :=
  if s.needs_upload then
    shouldAbsorbGate resolve (detect_and_cleanup_timed_out_uploads now s)
  else
    if s.temporary_message_limit ≤ s.temporary_messages.length then
      s.temporary_messages
    else []

/-- The images one observation contributes to the recent-images view:
pending slots are resolved non-blockingly and skipped while unresolved
(for uploading models), other slots pass through. -/
def recentImagesOfItem (needsUpload : Bool) (resolve : Nat → Option String)
    (ts : ℤ) (it : TempItem) : List (ℤ × FileRef) :=
  match truthyImages it with
  | none => []
  | some refs => refs.filterMap (fun r =>
      match r with
      | .pending pid =>
        if needsUpload then (resolve pid).map (fun u => (ts, FileRef.uploaded u))
        else some (ts, FileRef.pending pid)
      | .uploaded u => some (ts, FileRef.uploaded u))

/-- The post-sweep part of `get_recent_images_for_chat`: read the last
`min limit length` entries and collect their resolved images. -/
def recentImagesGate (resolve : Nat → Option String) (s : AccumState) :
    List (ℤ × FileRef) :=
  let n := min s.temporary_message_limit s.temporary_messages.length
  let recent :=
    if 0 < n then s.temporary_messages.drop (s.temporary_messages.length - n) else []
  recent.flatMap (fun e => recentImagesOfItem s.needs_upload resolve e.1 e.2)

/-- `get_recent_images_for_chat`: timeout sweep first, then the recent
resolved images. -/
def get_recent_images_for_chat (resolve : Nat → Option String) (now : ℤ) (s : AccumState) :
    List (ℤ × FileRef) :=
  recentImagesGate resolve (detect_and_cleanup_timed_out_uploads now s)

/-- The scan's length is the index of the first entry with a pending
upload (the whole length when there is none). -/
theorem scanReady_length (resolve : Nat → Option String) (l : List (ℤ × TempItem)) :
    (scanReady resolve l).length = l.findIdx (fun e => (itemReady resolve e.2).isNone) := by
  induction l with
  | nil => simp [scanReady]
  | cons e rest ih =>
    obtain ⟨ts, it⟩ := e
    rw [List.findIdx_cons]
    match hit : itemReady resolve it with
    | none => simp [scanReady, hit]
    | some it' => simp [scanReady, hit, ih]


/-- The scan returns resolved copies of exactly the entries it accepted. -/
theorem scanReady_eq_map_take (resolve : Nat → Option String) (l : List (ℤ × TempItem)) :
    scanReady resolve l =
      (l.take (scanReady resolve l).length).map
        (fun e => (e.1, (itemReady resolve e.2).getD e.2)) := by
  induction l with
  | nil => simp [scanReady]
  | cons e rest ih =>
    obtain ⟨ts, it⟩ := e
    match hit : itemReady resolve it with
    | none => simp [scanReady, hit]
    | some it' =>
      simp only [scanReady, hit, List.length_cons, List.take_succ_cons, List.map_cons,
        Option.getD_some]
      exact List.cons_eq_cons.mpr ⟨rfl, ih⟩

/-- A buffer entry that still holds the pending placeholder of a timed-out
upload is flagged by the sweep. -/
theorem mentions_imp_timedOut (t : List Nat) (pid : Nat) (it : TempItem)
    (hp : pid ∈ t) (hm : itemMentionsPending pid it = true) :
    itemHasTimedOut t it = true := by
  unfold itemMentionsPending at hm
  unfold itemHasTimedOut
  match htr : truthyImages it with
  | none => rw [htr] at hm; exact absurd hm (by simp)
  | some refs =>
    rw [htr] at hm
    rw [List.any_eq_true] at hm ⊢
    obtain ⟨r, hr, hrp⟩ := hm
    refine ⟨r, hr, ?_⟩
    match r with
    | .pending p =>
      have hppid : p = pid := by simpa using hrp
      subst hppid
      simpa using hp
    | .uploaded _ => simp at hrp

/-- Claim C1: for an uploading model, `should_absorb_content` returns the
resolved prefix of the (post-sweep) buffer exactly when it reaches the
flush limit and the empty list otherwise; the resolved prefix stops at the
first entry with an unresolved placeholder, so no entry at or after the
first pending one appears in the result. -/
theorem should_absorb_content_temporal_order
    (resolve : Nat → Option String) (now : ℤ) (s : AccumState)
    (h : s.needs_upload = true) :
    should_absorb_content resolve now s =
      (if s.temporary_message_limit ≤
          (scanReady resolve
            (detect_and_cleanup_timed_out_uploads now s).temporary_messages).length
        then scanReady resolve (detect_and_cleanup_timed_out_uploads now s).temporary_messages
        else []) ∧
    (scanReady resolve (detect_and_cleanup_timed_out_uploads now s).temporary_messages).length =
      (detect_and_cleanup_timed_out_uploads now s).temporary_messages.findIdx
        (fun e => (itemReady resolve e.2).isNone) ∧
    scanReady resolve (detect_and_cleanup_timed_out_uploads now s).temporary_messages =
      ((detect_and_cleanup_timed_out_uploads now s).temporary_messages.take
        (scanReady resolve
          (detect_and_cleanup_timed_out_uploads now s).temporary_messages).length).map
        (fun e => (e.1, (itemReady resolve e.2).getD e.2)) := by
  refine ⟨?_, scanReady_length _ _, scanReady_eq_map_take _ _⟩
  simp [should_absorb_content, h, shouldAbsorbGate, detect_and_cleanup_timed_out_uploads]

/-- Concrete accumulator entries for the witnesses: a resolvable image, a
stuck image, an image-free text message. -/
def accumExA : TempItem := ⟨some [.pending 1], none, "a"⟩

def accumExB : TempItem := ⟨some [.pending 2], none, "b"⟩

def accumExC : TempItem := ⟨none, none, "c"⟩

/-- A concrete accumulator state: three buffered observations, two tracked
uploads, the default 10-second timeout, flush limit 1, uploading model. -/
def accumExState : AccumState :=
  ⟨[(0, accumExA), (1, accumExB), (2, accumExC)], [(1, 0), (2, 0)], 10, 1, true⟩

/-- A concrete resolution oracle: upload 1 has completed, upload 2 is
still pending. -/
def accumExResolve : Nat → Option String :=
  fun pid => if pid = 1 then some "uri1" else none

/-- Witness for C1: at `accumExState` the scan accepts the resolved first
entry, stops at the stuck second entry, and the image-free third entry is
not returned even though it would be ready. -/
theorem should_absorb_content_temporal_order_witness :
    accumExState.needs_upload = true ∧
    (should_absorb_content accumExResolve 5 accumExState =
      (if accumExState.temporary_message_limit ≤
          (scanReady accumExResolve
            (detect_and_cleanup_timed_out_uploads 5 accumExState).temporary_messages).length
        then scanReady accumExResolve
          (detect_and_cleanup_timed_out_uploads 5 accumExState).temporary_messages
        else []) ∧
      (scanReady accumExResolve
        (detect_and_cleanup_timed_out_uploads 5 accumExState).temporary_messages).length =
        (detect_and_cleanup_timed_out_uploads 5 accumExState).temporary_messages.findIdx
          (fun e => (itemReady accumExResolve e.2).isNone) ∧
      scanReady accumExResolve
        (detect_and_cleanup_timed_out_uploads 5 accumExState).temporary_messages =
        ((detect_and_cleanup_timed_out_uploads 5 accumExState).temporary_messages.take
          (scanReady accumExResolve
            (detect_and_cleanup_timed_out_uploads 5 accumExState).temporary_messages).length).map
          (fun e => (e.1, (itemReady accumExResolve e.2).getD e.2))) ∧
    should_absorb_content accumExResolve 5 accumExState =
      [(0, ⟨some [.uploaded "uri1"], none, "a"⟩)] :=
  ⟨rfl, should_absorb_content_temporal_order accumExResolve 5 accumExState rfl, by decide⟩

/-- Claim C6: a placeholder pending strictly longer than
`upload_timeout_seconds` has its parent buffer entry removed entirely and
its tracking-map entry removed by the sweep, and the sweep runs before the
flush check and before the recent-images view. -/
theorem detect_timeouts_spec (resolve : Nat → Option String) (now : ℤ) (s : AccumState)
    (pid : Nat) (start : ℤ)
    (hmem : (pid, start) ∈ s.upload_start_times)
    (htime : s.upload_timeout_seconds < now - start) :
    (∀ e ∈ (detect_and_cleanup_timed_out_uploads now s).temporary_messages,
      itemMentionsPending pid e.2 = false) ∧
    (∀ st' : ℤ, (pid, st') ∉ (detect_and_cleanup_timed_out_uploads now s).upload_start_times) ∧
    (s.needs_upload = true →
      should_absorb_content resolve now s =
        shouldAbsorbGate resolve (detect_and_cleanup_timed_out_uploads now s)) ∧
    get_recent_images_for_chat resolve now s =
      recentImagesGate resolve (detect_and_cleanup_timed_out_uploads now s) := by
  have hpid : pid ∈ timedOutIds s now := by
    unfold timedOutIds
    exact List.mem_map.mpr ⟨(pid, start), List.mem_filter.mpr ⟨hmem, by simpa using htime⟩, rfl⟩
  refine ⟨?_, ?_, ?_, rfl⟩
  · intro e he
    have hkeep := (List.mem_filter.mp he).2
    by_contra hmen
    rw [Bool.not_eq_false] at hmen
    rw [mentions_imp_timedOut (timedOutIds s now) pid e.2 hpid hmen] at hkeep
    simp at hkeep
  · intro st' hin
    have hkeep := (List.mem_filter.mp hin).2
    simp only [Bool.not_eq_eq_eq_not, Bool.not_true, decide_eq_false_iff_not] at hkeep
    exact absurd (List.elem_iff.mpr hpid) (by simpa using hkeep)
  · intro h
    simp [should_absorb_content, h]

/-- A concrete state for the C6 witness: one buffered observation whose
upload has been pending for 11 seconds against the 10-second timeout. -/
def accumTimeoutState : AccumState :=
  ⟨[(0, ⟨some [.pending 7], none, "p"⟩)], [(7, 0)], 10, 1, true⟩

/-- Witness for C6: the stuck entry and its tracking disappear; flush and
recent-images then see an empty buffer. -/
theorem detect_timeouts_spec_witness :
    ((7 : Nat), (0 : ℤ)) ∈ accumTimeoutState.upload_start_times ∧
    accumTimeoutState.upload_timeout_seconds < (11 : ℤ) - 0 ∧
    ((∀ e ∈ (detect_and_cleanup_timed_out_uploads 11 accumTimeoutState).temporary_messages,
      itemMentionsPending 7 e.2 = false) ∧
    (∀ st' : ℤ,
      ((7 : Nat), st') ∉
        (detect_and_cleanup_timed_out_uploads 11 accumTimeoutState).upload_start_times) ∧
    (accumTimeoutState.needs_upload = true →
      should_absorb_content (fun _ => none) 11 accumTimeoutState =
        shouldAbsorbGate (fun _ => none)
          (detect_and_cleanup_timed_out_uploads 11 accumTimeoutState)) ∧
    get_recent_images_for_chat (fun _ => none) 11 accumTimeoutState =
      recentImagesGate (fun _ => none)
        (detect_and_cleanup_timed_out_uploads 11 accumTimeoutState)) ∧
    (detect_and_cleanup_timed_out_uploads 11 accumTimeoutState).temporary_messages = [] ∧
    should_absorb_content (fun _ => none) 11 accumTimeoutState = [] :=
  ⟨by decide, by decide,
    detect_timeouts_spec (fun _ => none) 11 accumTimeoutState 7 0 (by decide) (by decide),
    by decide, by decide⟩

/-! ## Upload manager worker -/

/-- A cloud file reference returned by the blob store. -/
structure CloudRef where
  name : String
  uri : String
  create_time : ℤ
deriving DecidableEq, Repr

/-- An upload job drained from the worker queue: the placeholder uuid
(a natural here), the original file, its timestamp, and the compressed
sibling when compression produced a file that exists (the source falls back
to the original when the compressed path is set but missing, which `none`
also covers). -/
structure UploadTask where
  upload_uuid : Nat
  filename : String
  timestamp : ℤ
  compressed : Option String
deriving DecidableEq, Repr

/-- Retry budget of `_upload_worker` (`max_retries`). -/
def max_retries : Nat := 3

/-- Backoff between attempts, in seconds (`retry_delay`). -/
def retry_delay : ℤ := 1

/-- Per-attempt timeout, in seconds (`upload_timeout`). -/
def upload_timeout : ℤ := 30

/-- The retry loop of `_upload_worker`: attempt up to `n` uploads, where
`attempt i` is the outcome of the i-th call of `files.upload` on the chosen
file (`none` covering both a raised error and the per-attempt timeout);
stop at the first success. -/
def retryLoop (attempt : Nat → Option CloudRef) : Nat → Nat → Option CloudRef
  | 0, _ => none
  | n + 1, i =>
    match attempt i with
    | some r => some r
    | none => retryLoop attempt n (i + 1)

/-- The value published in the worker's results table: the file reference
on success, the stringified exception on permanent failure. -/
inductive UploadResult where
  | ok (ref : CloudRef)
  | error (msg : String)
deriving DecidableEq, Repr

/-- What `_upload_worker` publishes for one task: the key in the results
table (the placeholder uuid), the file reference or the permanent error,
and the `CloudFileMapping` row inserted on a fresh successful upload
(local id, cloud id — the blob uri in this code path — and timestamp). -/
structure WorkerEffect where
  key : Nat
  result : UploadResult
  mappingAdded : Option (String × String × ℤ)
deriving DecidableEq, Repr

/-- `_upload_worker` body for one task (`mirix/agent/upload_manager.py`):
reuse an existing cloud mapping; otherwise upload the compressed file when
present, retrying up to `max_retries` times, then fall back to the original
file for up to `max_retries` further attempts; on success insert the
mapping and publish the reference, on permanent failure publish the
error — all keyed by the placeholder uuid. -/
def upload_worker_task (mapping : String → Option String) (existing : List CloudRef)
    (upload : String → Nat → Option CloudRef) (task : UploadTask) : WorkerEffect :=
  match mapping task.filename with
  | some cloudName =>
    match (existing.filter (fun x => x.name == cloudName)).head? with
    | some ref => ⟨task.upload_uuid, .ok ref, none⟩
    | none => ⟨task.upload_uuid, .error "IndexError", none⟩
  | none =>
    let uploadFile :=
      match task.compressed with
      | some c => c
      | none => task.filename
    match retryLoop (upload uploadFile) max_retries 0 with
    | some ref =>
      ⟨task.upload_uuid, .ok ref, some (task.filename, ref.uri, task.timestamp)⟩
    | none =>
      if uploadFile = task.filename then
        ⟨task.upload_uuid, .error "Upload failed after 3 attempts", none⟩
      else
        match retryLoop (upload task.filename) max_retries 0 with
        | some ref =>
          ⟨task.upload_uuid, .ok ref, some (task.filename, ref.uri, task.timestamp)⟩
        | none =>
          ⟨task.upload_uuid,
            .error "Failed to upload file after 3 attempts for both compressed and original files",
            none⟩

/-- The worker as claim C9 words it: after the compressed-file retries are
exhausted it retries only ONCE with the original file.  This definition
follows the claim's words, to be compared with `upload_worker_task`. -/
def upload_worker_task_claimed (mapping : String → Option String) (existing : List CloudRef)
    (upload : String → Nat → Option CloudRef) (task : UploadTask) : WorkerEffect :=
  match mapping task.filename with
  | some cloudName =>
    match (existing.filter (fun x => x.name == cloudName)).head? with
    | some ref => ⟨task.upload_uuid, .ok ref, none⟩
    | none => ⟨task.upload_uuid, .error "IndexError", none⟩
  | none =>
    let uploadFile :=
      match task.compressed with
      | some c => c
      | none => task.filename
    match retryLoop (upload uploadFile) max_retries 0 with
    | some ref =>
      ⟨task.upload_uuid, .ok ref, some (task.filename, ref.uri, task.timestamp)⟩
    | none =>
      if uploadFile = task.filename then
        ⟨task.upload_uuid, .error "Upload failed after 3 attempts", none⟩
      else
        match retryLoop (upload task.filename) 1 0 with
        | some ref =>
          ⟨task.upload_uuid, .ok ref, some (task.filename, ref.uri, task.timestamp)⟩
        | none =>
          ⟨task.upload_uuid,
            .error "Failed to upload file after 3 attempts for both compressed and original files",
            none⟩

/-- First-success semantics of the retry loop. -/
theorem retryLoop_eq_some (attempt : Nat → Option CloudRef) (r : CloudRef) :
    ∀ (n i : Nat), retryLoop attempt n i = some r ↔
      ∃ k, k < n ∧ attempt (i + k) = some r ∧ ∀ j, j < k → attempt (i + j) = none := by
  intro n
  induction n with
  | zero => intro i; simp [retryLoop]
  | succ n ih =>
    intro i
    simp only [retryLoop]
    match ha : attempt i with
    | some r' =>
      simp only [Option.some.injEq]
      constructor
      · rintro rfl
        exact ⟨0, Nat.succ_pos n, by simpa using ha, by omega⟩
      · rintro ⟨k, _, hk, hbefore⟩
        match k with
        | 0 => simpa [ha] using hk
        | k + 1 =>
          have := hbefore 0 (Nat.succ_pos k)
          rw [Nat.add_zero] at this
          rw [this] at ha
          exact absurd ha (by simp)
    | none =>
      rw [ih (i + 1)]
      constructor
      · rintro ⟨k, hkn, hk, hbefore⟩
        refine ⟨k + 1, by omega, by rw [← hk]; ring_nf, ?_⟩
        intro j hj
        match j with
        | 0 => simpa using ha
        | j + 1 =>
          have := hbefore j (by omega)
          rw [← this]; ring_nf
      · rintro ⟨k, hkn, hk, hbefore⟩
        match k with
        | 0 => rw [Nat.add_zero] at hk; rw [hk] at ha; exact absurd ha (by simp)
        | k + 1 =>
          refine ⟨k, by omega, by rw [← hk]; ring_nf, ?_⟩
          intro j hj
          have := hbefore (j + 1) (by omega)
          rw [← this]; ring_nf

/-- All-fail semantics of the retry loop. -/
theorem retryLoop_eq_none (attempt : Nat → Option CloudRef) :
    ∀ (n i : Nat), retryLoop attempt n i = none ↔ ∀ k, k < n → attempt (i + k) = none := by
  intro n
  induction n with
  | zero => intro i; simp [retryLoop]
  | succ n ih =>
    intro i
    simp only [retryLoop]
    match ha : attempt i with
    | some r' =>
      simp only
      constructor
      · intro h; exact absurd h (by simp)
      · intro h
        have := h 0 (Nat.succ_pos n)
        rw [Nat.add_zero] at this
        rw [this] at ha
        exact absurd ha (by simp)
    | none =>
      rw [ih (i + 1)]
      constructor
      · intro h k hk
        match k with
        | 0 => simpa using ha
        | k + 1 =>
          have := h k (by omega)
          rw [← this]; ring_nf
      · intro h k hk
        have := h (k + 1) (by omega)
        rw [← this]; ring_nf


/-- A concrete counterexample oracle: every attempt on the compressed file
fails, the first attempt on the original file fails, the second succeeds. -/
def c9Upload : String → Nat → Option CloudRef := fun f i =>
  if f = "shot.png" ∧ i = 1 then some ⟨"files/abc", "uri-abc", 0⟩ else none

/-- The counterexample task: not in the cloud mapping, compression
produced a sibling file. -/
def c9Task : UploadTask := ⟨42, "shot.png", 0, some "shot_compressed.jpg"⟩

/-- Counterexample to claim C9 as stated: with every compressed attempt
failing and the original file succeeding only on its second fallback
attempt, the worker in the source publishes the success — under the
claim's "retries once with the original file" this job would publish a
permanent error, as `upload_worker_task_claimed` shows. -/
theorem upload_worker_retry_once_counterexample :
    (∀ k, k < max_retries → c9Upload "shot_compressed.jpg" k = none) ∧
    c9Upload "shot.png" 0 = none ∧
    c9Upload "shot.png" 1 = some ⟨"files/abc", "uri-abc", 0⟩ ∧
    upload_worker_task (fun _ => none) [] c9Upload c9Task =
      ⟨42, .ok ⟨"files/abc", "uri-abc", 0⟩, some ("shot.png", "uri-abc", 0)⟩ ∧
    upload_worker_task_claimed (fun _ => none) [] c9Upload c9Task =
      ⟨42,
        .error "Failed to upload file after 3 attempts for both compressed and original files",
        none⟩ ∧
    upload_worker_task (fun _ => none) [] c9Upload c9Task ≠
      upload_worker_task_claimed (fun _ => none) [] c9Upload c9Task := by
  refine ⟨?_, ?_, ?_, ?_, ?_, ?_⟩ <;> decide

/-- Claim C9 (amended): for a job not in the cloud mapping with a
compressed sibling, the worker retries the compressed upload up to 3 times
(with a 30-second per-attempt timeout and 1-second backoff), then retries
up to 3 further times with the original file; on any success it publishes
the reference and inserts the mapping, and when every attempt fails it
publishes the error — all keyed by the placeholder uuid. -/
theorem upload_worker_spec (mapping : String → Option String) (existing : List CloudRef)
    (upload : String → Nat → Option CloudRef) (task : UploadTask) (c : String)
    (hnm : mapping task.filename = none) (hc : task.compressed = some c)
    (hcne : c ≠ task.filename) :
    (upload_worker_task mapping existing upload task).key = task.upload_uuid ∧
    (∀ r : CloudRef,
      (∃ k, k < max_retries ∧ upload c k = some r ∧ ∀ j, j < k → upload c j = none) →
      upload_worker_task mapping existing upload task =
        ⟨task.upload_uuid, .ok r, some (task.filename, r.uri, task.timestamp)⟩) ∧
    ((∀ k, k < max_retries → upload c k = none) →
      ∀ r : CloudRef,
      (∃ k, k < max_retries ∧ upload task.filename k = some r ∧
        ∀ j, j < k → upload task.filename j = none) →
      upload_worker_task mapping existing upload task =
        ⟨task.upload_uuid, .ok r, some (task.filename, r.uri, task.timestamp)⟩) ∧
    ((∀ k, k < max_retries → upload c k = none) →
      (∀ k, k < max_retries → upload task.filename k = none) →
      upload_worker_task mapping existing upload task =
        ⟨task.upload_uuid,
          .error "Failed to upload file after 3 attempts for both compressed and original files",
          none⟩) ∧
    max_retries = 3 ∧ retry_delay = 1 ∧ upload_timeout = 30 := by
  refine ⟨?_, ?_, ?_, ?_, rfl, rfl, rfl⟩
  · unfold upload_worker_task
    rw [hnm, hc]
    simp only
    match retryLoop (upload c) max_retries 0 with
    | some ref => rfl
    | none =>
      simp only [if_neg hcne]
      match retryLoop (upload task.filename) max_retries 0 with
      | some ref => rfl
      | none => rfl
  · intro r hr
    have hsome : retryLoop (upload c) max_retries 0 = some r := by
      rw [retryLoop_eq_some]
      obtain ⟨k, hk, hu, hb⟩ := hr
      exact ⟨k, hk, by simpa using hu, fun j hj => by simpa using hb j hj⟩
    unfold upload_worker_task
    rw [hnm, hc]
    simp only [hsome]
  · intro hfail r hr
    have hnone : retryLoop (upload c) max_retries 0 = none := by
      rw [retryLoop_eq_none]
      intro k hk
      simpa using hfail k hk
    have hsome : retryLoop (upload task.filename) max_retries 0 = some r := by
      rw [retryLoop_eq_some]
      obtain ⟨k, hk, hu, hb⟩ := hr
      exact ⟨k, hk, by simpa using hu, fun j hj => by simpa using hb j hj⟩
    unfold upload_worker_task
    rw [hnm, hc]
    simp only [hnone, if_neg hcne, hsome]
  · intro hfail hfail'
    have hnone : retryLoop (upload c) max_retries 0 = none := by
      rw [retryLoop_eq_none]
      intro k hk
      simpa using hfail k hk
    have hnone' : retryLoop (upload task.filename) max_retries 0 = none := by
      rw [retryLoop_eq_none]
      intro k hk
      simpa using hfail' k hk
    unfold upload_worker_task
    rw [hnm, hc]
    simp only [hnone, if_neg hcne, hnone']

/-- Witness for the amended C9 at the counterexample oracle and task: the
fallback succeeds on its second attempt and the mapping is inserted. -/
theorem upload_worker_spec_witness :
    ((fun _ : String => (none : Option String)) c9Task.filename = none) ∧
    c9Task.compressed = some "shot_compressed.jpg" ∧
    ("shot_compressed.jpg" ≠ c9Task.filename) ∧
    ((upload_worker_task (fun _ => none) [] c9Upload c9Task).key = c9Task.upload_uuid ∧
    (∀ r : CloudRef,
      (∃ k, k < max_retries ∧ c9Upload "shot_compressed.jpg" k = some r ∧
        ∀ j, j < k → c9Upload "shot_compressed.jpg" j = none) →
      upload_worker_task (fun _ => none) [] c9Upload c9Task =
        ⟨c9Task.upload_uuid, .ok r, some (c9Task.filename, r.uri, c9Task.timestamp)⟩) ∧
    ((∀ k, k < max_retries → c9Upload "shot_compressed.jpg" k = none) →
      ∀ r : CloudRef,
      (∃ k, k < max_retries ∧ c9Upload c9Task.filename k = some r ∧
        ∀ j, j < k → c9Upload c9Task.filename j = none) →
      upload_worker_task (fun _ => none) [] c9Upload c9Task =
        ⟨c9Task.upload_uuid, .ok r, some (c9Task.filename, r.uri, c9Task.timestamp)⟩) ∧
    ((∀ k, k < max_retries → c9Upload "shot_compressed.jpg" k = none) →
      (∀ k, k < max_retries → c9Upload c9Task.filename k = none) →
      upload_worker_task (fun _ => none) [] c9Upload c9Task =
        ⟨c9Task.upload_uuid,
          .error "Failed to upload file after 3 attempts for both compressed and original files",
          none⟩) ∧
    max_retries = 3 ∧ retry_delay = 1 ∧ upload_timeout = 30) ∧
    upload_worker_task (fun _ => none) [] c9Upload c9Task =
      ⟨42, .ok ⟨"files/abc", "uri-abc", 0⟩, some ("shot.png", "uri-abc", 0)⟩ :=
  ⟨rfl, rfl, by decide,
    upload_worker_spec (fun _ => none) [] c9Upload c9Task "shot_compressed.jpg"
      rfl rfl (by decide),
    by decide⟩


/-! ## Semantic search and the empty-query branches -/

/-- Lexicographic order on character lists: the order the database applies
to the `id ASC` tie-break. -/
def charListLe : List Char → List Char → Bool
  | [], _ => true
  | _ :: _, [] => false
  | c :: cs, d :: ds =>
    if c < d then true
    else if d < c then false
    else charListLe cs ds

/-- Lexicographic order on id strings. -/
def idLe (a b : String) : Bool :=
  charListLe a.data b.data

theorem charListLe_total : ∀ a b : List Char, charListLe a b || charListLe b a := by
  intro a
  induction a with
  | nil => intro b; simp [charListLe]
  | cons c cs ih =>
    intro b
    match b with
    | [] => simp [charListLe]
    | d :: ds =>
      simp only [charListLe]
      rcases lt_trichotomy c d with h | h | h
      · simp [h]
      · subst h
        simp only [lt_irrefl, if_false]
        exact ih ds
      · simp [h, not_lt_of_gt h]

theorem charListLe_trans :
    ∀ a b c : List Char, charListLe a b = true → charListLe b c = true →
      charListLe a c = true := by
  intro a
  induction a with
  | nil => intro b c _ _; simp [charListLe]
  | cons x xs ih =>
    intro b c hab hbc
    match b, c with
    | [], _ => simp [charListLe] at hab
    | _ :: _, [] => simp [charListLe] at hbc
    | y :: ys, z :: zs =>
      simp only [charListLe] at hab hbc ⊢
      rcases lt_trichotomy x y with hxy | hxy | hxy
      · rcases lt_trichotomy y z with hyz | hyz | hyz
        · simp [lt_trans hxy hyz]
        · subst hyz; simp [hxy]
        · rw [if_neg (not_lt_of_gt hyz), if_pos hyz] at hbc
          simp at hbc
      · subst hxy
        rcases lt_trichotomy x z with hxz | hxz | hxz
        · simp [hxz]
        · subst hxz
          simp only [lt_irrefl, if_false] at hab hbc ⊢
          exact ih _ _ hab hbc
        · rw [if_neg (not_lt_of_gt hxz), if_pos hxz] at hbc
          simp at hbc
      · rw [if_neg (not_lt_of_gt hxy), if_pos hxy] at hab
        simp at hab

/-- The ORDER BY key comparison of `build_query` with `ascending=True`:
cosine distance ascending, then `created_at` ascending, then `id`
ascending. -/
def rankLe (x y : ℤ × ℤ × String) : Bool :=
  if x.1 < y.1 then true
  else if y.1 < x.1 then false
  else if x.2.1 < y.2.1 then true
  else if y.2.1 < x.2.1 then false
  else idLe x.2.2 y.2.2

theorem rankLe_total (x y : ℤ × ℤ × String) : rankLe x y || rankLe y x := by
  unfold rankLe
  rcases lt_trichotomy x.1 y.1 with h | h | h
  · simp [h]
  · rw [h]
    simp only [lt_irrefl, if_false]
    rcases lt_trichotomy x.2.1 y.2.1 with h2 | h2 | h2
    · simp [h2]
    · rw [h2]
      simp only [lt_irrefl, if_false]
      exact charListLe_total _ _
    · simp [h2, not_lt_of_gt h2]
  · simp [h, not_lt_of_gt h]

theorem rankLe_trans (x y z : ℤ × ℤ × String)
    (hxy : rankLe x y = true) (hyz : rankLe y z = true) : rankLe x z = true := by
  unfold rankLe at hxy hyz ⊢
  rcases lt_trichotomy x.1 y.1 with h1 | h1 | h1
  · rcases lt_trichotomy y.1 z.1 with h2 | h2 | h2
    · simp [lt_trans h1 h2]
    · rw [← h2]; simp [h1]
    · rw [if_neg (not_lt_of_gt h2), if_pos h2] at hyz
      simp at hyz
  · rw [h1]
    rw [h1] at hxy
    simp only [lt_irrefl, if_false] at hxy
    rcases lt_trichotomy y.1 z.1 with h2 | h2 | h2
    · simp [h2]
    · rw [← h2] at hyz ⊢
      simp only [lt_irrefl, if_false] at hyz ⊢
      rcases lt_trichotomy x.2.1 y.2.1 with h3 | h3 | h3
      · rcases lt_trichotomy y.2.1 z.2.1 with h4 | h4 | h4
        · simp [lt_trans h3 h4]
        · rw [← h4]; simp [h3]
        · rw [if_neg (not_lt_of_gt h4), if_pos h4] at hyz
          simp at hyz
      · rw [h3]
        rw [h3] at hxy
        simp only [lt_irrefl, if_false] at hxy
        rcases lt_trichotomy y.2.1 z.2.1 with h4 | h4 | h4
        · simp [h4]
        · rw [← h4] at hyz ⊢
          simp only [lt_irrefl, if_false] at hyz ⊢
          exact charListLe_trans _ _ _ hxy hyz
        · rw [if_neg (not_lt_of_gt h4), if_pos h4] at hyz
          simp at hyz
      · rw [if_neg (not_lt_of_gt h3), if_pos h3] at hxy
        simp at hxy
    · rw [if_neg (not_lt_of_gt h2), if_pos h2] at hyz
      simp at hyz
  · rw [if_neg (not_lt_of_gt h1), if_pos h1] at hxy
    simp at hxy

/-- A semantic memory row (`mirix/orm/semantic_memory.py`).  Timestamps,
embedding components and distances are modelled over the integers: only
their linear order and the zero element matter here. -/
structure SemanticMemoryItem where
  id : String
  created_at : ℤ
  concept : String
  definition : String
  details : String
  source : String
  concept_embedding : List ℤ
  definition_embedding : List ℤ
  details_embedding : List ℤ
deriving DecidableEq, Repr

/-- The embedded search fields of a semantic row. -/
inductive SemField where
  | concept
  | definition
  | details
deriving DecidableEq, Repr

/-- Text of the selected field. -/
def semFieldText : SemField → SemanticMemoryItem → String
  | .concept, it => it.concept
  | .definition, it => it.definition
  | .details, it => it.details

/-- Embedding column of the selected field
(`SemanticMemoryItem.<field>_embedding`). -/
def semFieldEmbedding : SemField → SemanticMemoryItem → List ℤ
  | .concept, it => it.concept_embedding
  | .definition, it => it.definition_embedding
  | .details, it => it.details_embedding

/-- `np.pad(v, (0, D - len(v)))` in `build_query`: zero-pad the query
embedding to the maximum embedding dimension. -/
def padTo (D : Nat) (v : List ℤ) : List ℤ :=
  v ++ List.replicate (D - v.length) 0

/-- The ordering `build_query` asks the database for (ascending cosine
distance, `created_at` ascending, `id` ascending), realised as a sort of
the candidate rows by the rank key. -/
def buildQueryOrder {α : Type} (key : α → ℤ × ℤ × String) (rows : List α) : List α :=
  List.insertionSort (fun a b => rankLe (key a) (key b) = true) rows

/-- `if limit: main_query = main_query.limit(limit)`: a `none` or `0`
limit leaves the query unlimited (Python truthiness). -/
def pyLimit {α : Type} (limit : Option Nat) (l : List α) : List α :=
  match limit with
  | none => l
  | some n => if n = 0 then l else l.take n

/-- The search methods modelled (the `fuzzy_match` branch is not touched
by the claims). -/
inductive SearchMethod where
  | semantic_match
  | string_match
deriving DecidableEq, Repr

/-- The rank key `build_query` orders by for a semantic row: distance of
the padded query embedding to the selected field embedding, then
`created_at`, then `id`. -/
def semRankKey (D : Nat) (embed : String → List ℤ) (dist : List ℤ → List ℤ → ℤ)
    (query : String) (f : SemField) (it : SemanticMemoryItem) : ℤ × ℤ × String :=
  (dist (padTo D (embed query)) (semFieldEmbedding f it), it.created_at, it.id)

/-- `list_semantic_items` (`mirix/services/semantic_memory_manager.py`) for
the branches the claims exercise: an empty query returns every row of the
table; `semantic_match` embeds the query through the external embedder,
zero-pads it to `D` and orders by the external cosine distance with the
`created_at`, `id` tie-breaks, applying the truthy limit; `string_match`
filters by lowercase containment in select order under the same limit. -/
def list_semantic_items (D : Nat) (embed : String → List ℤ) (dist : List ℤ → List ℤ → ℤ)
    (st : List SemanticMemoryItem) (query : String) (search_field : SemField)
    (search_method : SearchMethod) (limit : Option Nat) : List SemanticMemoryItem :=
  if query = "" then st
  else
    match search_method with
    | .semantic_match =>
      pyLimit limit (buildQueryOrder (semRankKey D embed dist query search_field) st)
    | .string_match =>
      pyLimit limit (st.filter (fun it => lowerContains (semFieldText search_field it) query))

/-- Python `rows[-limit:]`: the whole list when `limit` is `0`, otherwise
the last `limit` rows. -/
def pyLastSlice {α : Type} (limit : Nat) (l : List α) : List α :=
  if limit = 0 then l else l.drop (l.length - limit)

/-- The empty-query branch of `list_knowledge`
(`mirix/services/knowledge_vault_manager.py`): every row of the table in
select order, sliced by `[-limit:]`. -/
def list_knowledge_empty_query (st : KVStore) (limit : Nat) : List KnowledgeVaultItem :=
  pyLastSlice limit st


/-- The rank relation is total. -/
theorem rankRel_isTotal {α : Type} (key : α → ℤ × ℤ × String) :
    IsTotal α (fun a b => rankLe (key a) (key b) = true) := by
  constructor
  intro a b
  have h := rankLe_total (key a) (key b)
  rcases Bool.or_eq_true _ _ |>.mp h with h' | h'
  · exact Or.inl h'
  · exact Or.inr h'

/-- The rank relation is transitive. -/
theorem rankRel_isTrans {α : Type} (key : α → ℤ × ℤ × String) :
    IsTrans α (fun a b => rankLe (key a) (key b) = true) :=
  ⟨fun _ _ _ hab hbc => rankLe_trans _ _ _ hab hbc⟩

/-- Claim C3 (amended — the claim as stated fails for a `0` or `None`
limit, see the counterexample): for a `semantic_match` search with a
positive limit, the query is embedded and zero-padded to the maximum
embedding dimension, the candidates are all table rows ordered ascending
by cosine distance to the chosen field embedding with ties broken by
`created_at` then `id`, and the first `limit` rows of that order are
returned. -/
theorem list_semantic_items_semantic_match_spec
    (D : Nat) (embed : String → List ℤ) (dist : List ℤ → List ℤ → ℤ)
    (st : List SemanticMemoryItem) (query : String) (f : SemField) (l : Nat)
    (hq : query ≠ "") (hl : 1 ≤ l) :
    list_semantic_items D embed dist st query f .semantic_match (some l) =
      (buildQueryOrder (semRankKey D embed dist query f) st).take l ∧
    (buildQueryOrder (semRankKey D embed dist query f) st).Perm st ∧
    List.Pairwise
      (fun a b => rankLe (semRankKey D embed dist query f a)
        (semRankKey D embed dist query f b) = true)
      (list_semantic_items D embed dist st query f .semantic_match (some l)) ∧
    (∀ x ∈ st, x ∉ list_semantic_items D embed dist st query f .semantic_match (some l) →
      ∀ y ∈ list_semantic_items D embed dist st query f .semantic_match (some l),
        rankLe (semRankKey D embed dist query f y) (semRankKey D embed dist query f x) =
          true) ∧
    (list_semantic_items D embed dist st query f .semantic_match (some l)).length =
      min l st.length := by
  haveI := rankRel_isTotal (semRankKey D embed dist query f)
  haveI := rankRel_isTrans (semRankKey D embed dist query f)
  have hl0 : l ≠ 0 := by omega
  have hr : list_semantic_items D embed dist st query f .semantic_match (some l) =
      (buildQueryOrder (semRankKey D embed dist query f) st).take l := by
    simp [list_semantic_items, hq, pyLimit, hl0]
  have hperm : (buildQueryOrder (semRankKey D embed dist query f) st).Perm st :=
    List.perm_insertionSort _ st
  have hsorted : List.Pairwise
      (fun a b => rankLe (semRankKey D embed dist query f a)
        (semRankKey D embed dist query f b) = true)
      (buildQueryOrder (semRankKey D embed dist query f) st) :=
    List.sorted_insertionSort _ st
  refine ⟨hr, hperm, ?_, ?_, ?_⟩
  · rw [hr]
    exact List.Pairwise.sublist (List.take_sublist _ _) hsorted
  · intro x hx hnx y hy
    rw [hr] at hnx hy
    have hxs : x ∈ buildQueryOrder (semRankKey D embed dist query f) st :=
      (hperm.mem_iff).mpr hx
    have hsplit := List.take_append_drop l (buildQueryOrder (semRankKey D embed dist query f) st)
    have hxdrop : x ∈ (buildQueryOrder (semRankKey D embed dist query f) st).drop l := by
      rcases List.mem_append.mp (by rw [hsplit]; exact hxs) with h | h
      · exact absurd h hnx
      · exact h
    have hpw := hsorted
    rw [← hsplit] at hpw
    exact (List.pairwise_append.mp hpw).2.2 y hy x hxdrop
  · rw [hr, List.length_take, hperm.length_eq]

/-- Concrete rows for the search examples. -/
def c3Item1 : SemanticMemoryItem :=
  ⟨"sem1", 0, "cat", "a small animal", "", "", [1], [0], [0]⟩

def c3Item2 : SemanticMemoryItem :=
  ⟨"sem2", 1, "dog", "another animal", "", "", [2], [0], [0]⟩

/-- A concrete distance oracle reading the head of the row embedding
(smaller head means closer to the query). -/
def c3Dist : List ℤ → List ℤ → ℤ := fun _ v => v.headD 0

/-- Counterexample to C3 as stated: with `limit = 0` (an admissible
`Optional[int]` argument) the Python truthiness test `if limit:` skips the
LIMIT clause, so the whole ordered candidate list is returned instead of
the first `0` rows. -/
theorem semantic_match_limit_zero_counterexample :
    list_semantic_items 4 (fun _ => [0]) c3Dist [c3Item1, c3Item2] "feline"
        .concept .semantic_match (some 0) = [c3Item1, c3Item2] ∧
    (list_semantic_items 4 (fun _ => [0]) c3Dist [c3Item1, c3Item2] "feline"
        .concept .semantic_match (some 0)).length = 2 ∧
    list_semantic_items 4 (fun _ => [0]) c3Dist [c3Item1, c3Item2] "feline"
        .concept .semantic_match (some 0) ≠
      (buildQueryOrder (semRankKey 4 (fun _ => [0]) c3Dist "feline" .concept)
        [c3Item1, c3Item2]).take 0 := by
  refine ⟨?_, ?_, ?_⟩ <;> decide

/-- Witness for the amended C3 at the concrete store: with `limit = 1` the
row closest to the query ("cat") is the single result. -/
theorem list_semantic_items_semantic_match_spec_witness :
    ("feline" ≠ "") ∧ (1 ≤ 1) ∧
    (list_semantic_items 4 (fun _ => [0]) c3Dist [c3Item1, c3Item2] "feline"
        .concept .semantic_match (some 1) =
      (buildQueryOrder (semRankKey 4 (fun _ => [0]) c3Dist "feline" .concept)
        [c3Item1, c3Item2]).take 1 ∧
    (buildQueryOrder (semRankKey 4 (fun _ => [0]) c3Dist "feline" .concept)
        [c3Item1, c3Item2]).Perm [c3Item1, c3Item2] ∧
    List.Pairwise
      (fun a b => rankLe (semRankKey 4 (fun _ => [0]) c3Dist "feline" .concept a)
        (semRankKey 4 (fun _ => [0]) c3Dist "feline" .concept b) = true)
      (list_semantic_items 4 (fun _ => [0]) c3Dist [c3Item1, c3Item2] "feline"
        .concept .semantic_match (some 1)) ∧
    (∀ x ∈ [c3Item1, c3Item2],
      x ∉ list_semantic_items 4 (fun _ => [0]) c3Dist [c3Item1, c3Item2] "feline"
        .concept .semantic_match (some 1) →
      ∀ y ∈ list_semantic_items 4 (fun _ => [0]) c3Dist [c3Item1, c3Item2] "feline"
        .concept .semantic_match (some 1),
        rankLe (semRankKey 4 (fun _ => [0]) c3Dist "feline" .concept y)
          (semRankKey 4 (fun _ => [0]) c3Dist "feline" .concept x) = true) ∧
    (list_semantic_items 4 (fun _ => [0]) c3Dist [c3Item1, c3Item2] "feline"
        .concept .semantic_match (some 1)).length =
      min 1 ([c3Item1, c3Item2] : List SemanticMemoryItem).length) ∧
    list_semantic_items 4 (fun _ => [0]) c3Dist [c3Item1, c3Item2] "feline"
        .concept .semantic_match (some 1) = [c3Item1] :=
  ⟨by decide, by decide,
    list_semantic_items_semantic_match_spec 4 (fun _ => [0]) c3Dist
      [c3Item1, c3Item2] "feline" .concept 1 (by decide) (by decide),
    by decide⟩

/-- Claim C7 (amended — the claim as stated fails for the semantic and
procedural managers, see the counterexample): on an empty query the
knowledge-vault manager returns the last `limit` rows in insertion order
(the most recently inserted ones, for a positive limit), while the
semantic manager returns every row, ignoring `limit`. -/
theorem empty_query_recent_spec :
    (∀ (st : KVStore) (limit : Nat), 1 ≤ limit →
      list_knowledge_empty_query st limit = st.drop (st.length - limit) ∧
      (list_knowledge_empty_query st limit).length = min limit st.length ∧
      (list_knowledge_empty_query st limit).IsSuffix st) ∧
    (∀ (D : Nat) (embed : String → List ℤ) (dist : List ℤ → List ℤ → ℤ)
      (st : List SemanticMemoryItem) (f : SemField) (m : SearchMethod)
      (limit : Option Nat),
      list_semantic_items D embed dist st "" f m limit = st) := by
  constructor
  · intro st limit hl
    have hl0 : limit ≠ 0 := by omega
    refine ⟨by simp [list_knowledge_empty_query, pyLastSlice, hl0], ?_, ?_⟩
    · simp [list_knowledge_empty_query, pyLastSlice, hl0]
      omega
    · simp only [list_knowledge_empty_query, pyLastSlice, hl0, if_false]
      exact List.drop_suffix _ _
  · intro D embed dist st f m limit
    simp [list_semantic_items]

/-- A knowledge-vault row for the C7 witness. -/
def c7Kv1 : KnowledgeVaultItem := ⟨"kv1", "credential", "chat", "low", "s1", "d1"⟩

/-- A second knowledge-vault row for the C7 witness. -/
def c7Kv2 : KnowledgeVaultItem := ⟨"kv2", "credential", "chat", "low", "s2", "d2"⟩

/-- Counterexample to C7 as stated: the semantic manager's empty-query
branch returns every row, not the most recently inserted `limit` rows —
with two rows and `limit = 1` the result has two items. -/
theorem empty_query_limit_counterexample :
    list_semantic_items 4 (fun _ => [0]) c3Dist [c3Item1, c3Item2] "" .concept
        .semantic_match (some 1) = [c3Item1, c3Item2] ∧
    (list_semantic_items 4 (fun _ => [0]) c3Dist [c3Item1, c3Item2] "" .concept
        .semantic_match (some 1)).length ≠ 1 := by
  refine ⟨?_, ?_⟩ <;> decide

/-- Witness for the amended C7: the knowledge vault keeps the last row for
`limit = 1`, the semantic store comes back whole. -/
theorem empty_query_recent_spec_witness :
    ((1 : Nat) ≤ 1 →
      (list_knowledge_empty_query [c7Kv1, c7Kv2] 1 =
        ([c7Kv1, c7Kv2] : KVStore).drop (([c7Kv1, c7Kv2] : KVStore).length - 1) ∧
      (list_knowledge_empty_query [c7Kv1, c7Kv2] 1).length =
        min 1 ([c7Kv1, c7Kv2] : KVStore).length ∧
      (list_knowledge_empty_query [c7Kv1, c7Kv2] 1).IsSuffix [c7Kv1, c7Kv2])) ∧
    list_knowledge_empty_query [c7Kv1, c7Kv2] 1 = [c7Kv2] ∧
    list_semantic_items 4 (fun _ => [0]) c3Dist [c3Item1, c3Item2] "" .concept
        .semantic_match (some 50) = [c3Item1, c3Item2] :=
  ⟨fun h => empty_query_recent_spec.1 [c7Kv1, c7Kv2] 1 h,
    by decide,
    empty_query_recent_spec.2 4 (fun _ => [0]) c3Dist [c3Item1, c3Item2] .concept
      .semantic_match (some 50)⟩


/-! ## Per-agent-type FIFO message queue -/

/-- One entry of the coordinator's message queue (`src/agent.py`): the
message uuid (a natural here), its agent type tag (`'chat'` or
`'meta_memory'` in the source), and the started and finished flags. -/
structure QEntry where
  mid : Nat
  qtype : String
  started : Bool
  finished : Bool
deriving DecidableEq, Repr

/-- The queue dict in insertion order. -/
abbrev Queue := List QEntry

/-- The entries strictly before the given uuid in queue order
(`list(message_queue.values())[:idx]`). -/
def earlierEntries (q : Queue) (mid : Nat) : Queue :=
  q.takeWhile (fun e => e.mid != mid)

/-- `check_if_earlier_requests_are_finished`: true when every earlier entry
with the same agent type as the given entry is finished (a uuid no longer
in the queue raises in the source, modelled as `false` — such a poll cannot
release the caller). -/
def check_if_earlier_requests_are_finished (q : Queue) (mid : Nat) : Bool :=
  match q.find? (fun e => e.mid == mid) with
  | none => false
  | some cur =>
    (earlierEntries q mid).all (fun e => e.qtype != cur.qtype || e.finished)

/-- An event of a `send_message_in_queue` run: a submission entering the
dict, the polling loop releasing it to start, the finished flag being set,
and the entry being deleted after completion. -/
inductive QEvent where
  | submit (mid : Nat) (qtype : String)
  | start (mid : Nat)
  | finishMark (mid : Nat)
  | remove (mid : Nat)
deriving DecidableEq, Repr

/-- Queue plus every uuid ever issued (`uuid.uuid4()` freshness). -/
structure QState where
  queue : Queue
  used : List Nat
deriving DecidableEq, Repr

/-- One step of the queue protocol: a submission appends a fresh entry
with both flags clear; a start requires the eligibility check and marks
`started`; the executing submitter then marks `finished`; a finished entry
is removed.  Steps interleave arbitrarily across submitters. -/
def qStep (s : QState) : QEvent → Option QState
  | .submit mid t =>
    if s.used.contains mid then none
    else some ⟨s.queue ++ [⟨mid, t, false, false⟩], s.used ++ [mid]⟩
  | .start mid =>
    match s.queue.find? (fun e => e.mid == mid) with
    | none => none
    | some cur =>
      if cur.started = false ∧ cur.finished = false ∧
          check_if_earlier_requests_are_finished s.queue mid = true then
        some ⟨s.queue.map (fun e => if e.mid == mid then { e with started := true } else e),
          s.used⟩
      else none
  | .finishMark mid =>
    match s.queue.find? (fun e => e.mid == mid) with
    | none => none
    | some cur =>
      if cur.started = true ∧ cur.finished = false then
        some ⟨s.queue.map (fun e => if e.mid == mid then { e with finished := true } else e),
          s.used⟩
      else none
  | .remove mid =>
    match s.queue.find? (fun e => e.mid == mid) with
    | none => none
    | some cur =>
      if cur.finished = true then
        some ⟨s.queue.filter (fun e => e.mid != mid), s.used⟩
      else none

/-- Run a list of events from a state; `none` when some step is illegal. -/
def runQ : QState → List QEvent → Option QState
  | s, [] => some s
  | s, ev :: evs =>
    match qStep s ev with
    | none => none
    | some s' => runQ s' evs

/-- The empty initial state. -/
def initQ : QState := ⟨[], []⟩

/-- The submissions of a trace, in order. -/
def submitsOf : List QEvent → List (Nat × String)
  | [] => []
  | .submit mid t :: evs => (mid, t) :: submitsOf evs
  | .start _ :: evs => submitsOf evs
  | .finishMark _ :: evs => submitsOf evs
  | .remove _ :: evs => submitsOf evs

/-- The submitted uuids of a trace, in order. -/
def submitMids (tr : List QEvent) : List Nat :=
  (submitsOf tr).map (fun p => p.1)


/-- The run-time invariant tying a queue state to its trace: the issued
uuids are the submissions in order and are distinct; the queue lists a
subsequence of them in submission order; every entry's tag comes from its
submission; a finished flag witnesses a finish event; and a uuid that has
left the queue finished beforehand. -/
def QInv (tr : List QEvent) (s : QState) : Prop :=
  s.used = submitMids tr ∧
  s.used.Nodup ∧
  (s.queue.map (fun e => e.mid)).Sublist s.used ∧
  (∀ e ∈ s.queue, (e.mid, e.qtype) ∈ submitsOf tr) ∧
  (∀ e ∈ s.queue, e.finished = true → QEvent.finishMark e.mid ∈ tr) ∧
  (∀ m ∈ s.used, (∀ e ∈ s.queue, e.mid ≠ m) → QEvent.finishMark m ∈ tr)

theorem submitsOf_append (l₁ l₂ : List QEvent) :
    submitsOf (l₁ ++ l₂) = submitsOf l₁ ++ submitsOf l₂ := by
  induction l₁ with
  | nil => rfl
  | cons ev evs ih => cases ev <;> simp [submitsOf, ih]

theorem runQ_append (l₁ l₂ : List QEvent) :
    ∀ s, runQ s (l₁ ++ l₂) =
      match runQ s l₁ with
      | none => none
      | some s₁ => runQ s₁ l₂ := by
  induction l₁ with
  | nil => intro s; simp [runQ]
  | cons ev evs ih =>
    intro s
    simp only [List.cons_append, runQ]
    match qStep s ev with
    | none => rfl
    | some s' => exact ih s'

theorem map_mid_set_started (q : Queue) (mid : Nat) :
    (q.map (fun e => if e.mid == mid then { e with started := true } else e)).map
      (fun e => e.mid) = q.map (fun e => e.mid) := by
  rw [List.map_map]
  apply List.map_congr_left
  intro e _
  simp only [Function.comp]
  split <;> rfl

theorem map_mid_set_finished (q : Queue) (mid : Nat) :
    (q.map (fun e => if e.mid == mid then { e with finished := true } else e)).map
      (fun e => e.mid) = q.map (fun e => e.mid) := by
  rw [List.map_map]
  apply List.map_congr_left
  intro e _
  simp only [Function.comp]
  split <;> rfl

theorem QInv_step (tr : List QEvent) (s s' : QState) (ev : QEvent)
    (hinv : QInv tr s) (hstep : qStep s ev = some s') : QInv (tr ++ [ev]) s' := by
  obtain ⟨hA, hB, hC, hD, hE, hF⟩ := hinv
  have hsub : ∀ p, p ∈ submitsOf tr → p ∈ submitsOf (tr ++ [ev]) := by
    intro p hp
    rw [submitsOf_append]
    exact List.mem_append_left _ hp
  have hfin : ∀ m, QEvent.finishMark m ∈ tr → QEvent.finishMark m ∈ tr ++ [ev] :=
    fun m hm => List.mem_append_left _ hm
  cases ev with
  | submit mid t =>
    simp only [qStep] at hstep
    by_cases hused : s.used.contains mid = true
    · rw [if_pos hused] at hstep
      exact absurd hstep (by simp)
    · rw [if_neg hused, Option.some.injEq] at hstep
      subst hstep
      have hnotmem : mid ∉ s.used := fun hm => hused (List.elem_iff.mpr hm)
      have hsubmits : submitsOf (tr ++ [QEvent.submit mid t]) =
          submitsOf tr ++ [(mid, t)] := by
        rw [submitsOf_append]; rfl
      refine ⟨?_, ?_, ?_, ?_, ?_, ?_⟩
      · simp only [submitMids, hsubmits, List.map_append, List.map_cons, List.map_nil]
        rw [hA]; rfl
      · simp only [List.nodup_append, List.nodup_cons, List.nodup_nil]
        exact ⟨hB, by simp, by simpa [List.disjoint_singleton] using hnotmem⟩
      · simp only [List.map_append, List.map_cons, List.map_nil]
        exact List.Sublist.append hC (List.Sublist.refl _)
      · intro e he
        rcases List.mem_append.mp he with h | h
        · exact hsub _ (hD e h)
        · simp only [List.mem_singleton] at h
          subst h
          rw [hsubmits]
          exact List.mem_append_right _ (by simp)
      · intro e he hef
        rcases List.mem_append.mp he with h | h
        · exact hfin _ (hE e h hef)
        · simp only [List.mem_singleton] at h
          subst h
          simp at hef
      · intro m hm hq
        rcases List.mem_append.mp hm with h | h
        · refine hfin _ (hF m h ?_)
          intro e he
          exact hq e (List.mem_append_left _ he)
        · simp only [List.mem_singleton] at h
          subst h
          exact absurd rfl (hq ⟨m, t, false, false⟩ (List.mem_append_right _ (by simp)))
  | start mid =>
    simp only [qStep] at hstep
    split at hstep
    next => exact absurd hstep (by simp)
    next cur hfind =>
      split at hstep
      case isTrue hg =>
        rw [Option.some.injEq] at hstep
        subst hstep
        have hsubmits : submitsOf (tr ++ [QEvent.start mid]) = submitsOf tr := by
          rw [submitsOf_append]; simp [submitsOf]
        refine ⟨?_, hB, ?_, ?_, ?_, ?_⟩
        · simpa [submitMids, hsubmits] using hA
        · rw [map_mid_set_started]
          exact hC
        · intro e' he'
          obtain ⟨e, he, rfl⟩ := List.mem_map.mp he'
          rw [hsubmits]
          by_cases h : e.mid == mid <;> simpa [h] using hD e he
        · intro e' he' hef
          obtain ⟨e, he, rfl⟩ := List.mem_map.mp he'
          by_cases h : e.mid == mid
          · rw [if_pos h] at hef ⊢
            exact hfin _ (hE e he (by simpa using hef))
          · rw [if_neg h] at hef ⊢
            exact hfin _ (hE e he hef)
        · intro m hm hq
          refine hfin _ (hF m hm ?_)
          intro e he
          have : (if e.mid == mid then { e with started := true } else e).mid ≠ m :=
            hq _ (List.mem_map.mpr ⟨e, he, rfl⟩)
          by_cases h : e.mid == mid
          · simpa [h] using this
          · simpa [h] using this
      case isFalse hg =>
        exact absurd hstep (by simp)
  | finishMark mid =>
    simp only [qStep] at hstep
    split at hstep
    next => exact absurd hstep (by simp)
    next cur hfind =>
      split at hstep
      case isTrue hg =>
        rw [Option.some.injEq] at hstep
        subst hstep
        have hsubmits : submitsOf (tr ++ [QEvent.finishMark mid]) = submitsOf tr := by
          rw [submitsOf_append]; simp [submitsOf]
        refine ⟨?_, hB, ?_, ?_, ?_, ?_⟩
        · simpa [submitMids, hsubmits] using hA
        · rw [map_mid_set_finished]
          exact hC
        · intro e' he'
          obtain ⟨e, he, rfl⟩ := List.mem_map.mp he'
          rw [hsubmits]
          by_cases h : e.mid == mid <;> simpa [h] using hD e he
        · intro e' he' hef
          obtain ⟨e, he, rfl⟩ := List.mem_map.mp he'
          by_cases h : e.mid == mid
          · have : e.mid = mid := by simpa using h
            rw [if_pos h]
            rw [this]
            exact List.mem_append_right _ (by simp)
          · rw [if_neg h] at hef ⊢
            exact hfin _ (hE e he hef)
        · intro m hm hq
          refine hfin _ (hF m hm ?_)
          intro e he
          have : (if e.mid == mid then { e with finished := true } else e).mid ≠ m :=
            hq _ (List.mem_map.mpr ⟨e, he, rfl⟩)
          by_cases h : e.mid == mid
          · simpa [h] using this
          · simpa [h] using this
      case isFalse hg =>
        exact absurd hstep (by simp)
  | remove mid =>
    simp only [qStep] at hstep
    split at hstep
    next => exact absurd hstep (by simp)
    next cur hfind =>
      split at hstep
      case isTrue hg =>
        rw [Option.some.injEq] at hstep
        subst hstep
        have hcurmem : cur ∈ s.queue := List.mem_of_find?_eq_some hfind
        have hcurmid : cur.mid = mid := by
          have := List.find?_some hfind
          simpa using this
        have hsubmits : submitsOf (tr ++ [QEvent.remove mid]) = submitsOf tr := by
          rw [submitsOf_append]; simp [submitsOf]
        refine ⟨?_, hB, ?_, ?_, ?_, ?_⟩
        · simpa [submitMids, hsubmits] using hA
        · exact List.Sublist.trans (List.Sublist.map _ (List.filter_sublist _)) hC
        · intro e he
          rw [hsubmits]
          exact hD e (List.mem_of_mem_filter he)
        · intro e he hef
          exact hfin _ (hE e (List.mem_of_mem_filter he) hef)
        · intro m hm hq
          by_cases hmmid : m = mid
          · subst hmmid
            have := hE cur hcurmem hg
            rw [hcurmid] at this
            exact hfin _ this
          · refine hfin _ (hF m hm ?_)
            intro e he
            by_cases hemid : e.mid = mid
            · rw [hemid]
              exact fun h => hmmid h.symm
            · refine hq e (List.mem_filter.mpr ⟨he, ?_⟩)
              simpa using hemid
      case isFalse hg =>
        exact absurd hstep (by simp)

/-- The invariant holds after every successful run from the empty state. -/
theorem QInv_run : ∀ (tr₂ tr₁ : List QEvent) (s₁ s₂ : QState),
    QInv tr₁ s₁ → runQ s₁ tr₂ = some s₂ → QInv (tr₁ ++ tr₂) s₂ := by
  intro tr₂
  induction tr₂ with
  | nil =>
    intro tr₁ s₁ s₂ hinv hrun
    simp only [runQ, Option.some.injEq] at hrun
    subst hrun
    simpa using hinv
  | cons ev evs ih =>
    intro tr₁ s₁ s₂ hinv hrun
    simp only [runQ] at hrun
    match hstep : qStep s₁ ev with
    | none => rw [hstep] at hrun; exact absurd hrun (by simp)
    | some s' =>
      rw [hstep] at hrun
      have := ih (tr₁ ++ [ev]) s' s₂ (QInv_step tr₁ s₁ s' ev hinv hstep) hrun
      simpa using this

/-- The invariant for a complete run. -/
theorem QInv_of_run (tr : List QEvent) (s : QState) (hrun : runQ initQ tr = some s) :
    QInv tr s := by
  have hinit : QInv [] initQ := by
    refine ⟨rfl, List.nodup_nil, by simp [initQ], ?_, ?_, ?_⟩ <;> simp [initQ]
  simpa using QInv_run tr [] initQ s hinit hrun


/-- A two-element subsequence whose second element lies in the left part of
an append (with no duplicates overall) lies entirely in the left part. -/
theorem pair_sublist_left {α : Type} (a b : α) (u₁ u₂ : List α)
    (hab : [a, b].Sublist (u₁ ++ u₂)) (hb : b ∈ u₁) (hnd : (u₁ ++ u₂).Nodup) :
    [a, b].Sublist u₁ := by
  have hdisj : u₁.Disjoint u₂ := (List.nodup_append.mp hnd).2.2
  rcases List.sublist_append_iff.mp hab with ⟨l₁, l₂, heq, h₁, h₂⟩
  match l₁, heq with
  | [], heq =>
    subst heq
    exact absurd (h₂.subset (by simp)) (hdisj hb)
  | [x], heq =>
    obtain ⟨rfl, rfl⟩ : x = a ∧ l₂ = [b] := by
      have := heq.symm
      simpa using this
    exact absurd (h₂.subset (by simp)) (hdisj hb)
  | x :: y :: rest, heq =>
    obtain ⟨rfl, rfl, hrest⟩ : x = a ∧ y = b ∧ rest ++ l₂ = [] := by
      have := heq.symm
      simpa using this
    have : rest = [] := by
      cases rest with
      | nil => rfl
      | cons z zs => simp at hrest
    subst this
    exact h₁

/-- Relative order of two elements is inherited by subsequences of a
duplicate-free list. -/
theorem pair_sublist_of_sublist {α : Type} (a b : α) :
    ∀ {u v : List α}, v.Sublist u → u.Nodup → [a, b].Sublist u → a ∈ v → b ∈ v →
      [a, b].Sublist v := by
  intro u v hvu
  induction hvu with
  | slnil =>
    intro _ _ ha _
    cases ha
  | cons x hvu ih =>
    intro hnd hab ha hb
    have hxnot := (List.nodup_cons.mp hnd).1
    have hnd' := (List.nodup_cons.mp hnd).2
    cases hab with
    | cons _ hab' => exact ih hnd' hab' ha hb
    | cons₂ _ hab' =>
      exact absurd (hvu.subset ha) hxnot
  | cons₂ x hvu ih =>
    intro hnd hab ha hb
    have hxnot := (List.nodup_cons.mp hnd).1
    have hnd' := (List.nodup_cons.mp hnd).2
    cases hab with
    | cons _ hab' =>
      rcases List.mem_cons.mp hb with rfl | hbv
      · exact absurd (hab'.subset (by simp)) hxnot
      · rcases List.mem_cons.mp ha with rfl | hav
        · exact List.Sublist.cons₂ _ (List.singleton_sublist.mpr hbv)
        · exact List.Sublist.cons _ (ih hnd' hab' hav hbv)
    | cons₂ _ hab' =>
      rcases List.mem_cons.mp hb with rfl | hbv
      · exact absurd (hab'.subset (List.mem_singleton_self _)) hxnot
      · exact List.Sublist.cons₂ _ (List.singleton_sublist.mpr hbv)

/-- An entry whose uuid precedes `b` in the (duplicate-free) queue order
lies among the earlier entries of `b`. -/
theorem mem_earlier_of_pair_sublist (a b : Nat) (ea : QEntry) (hne : a ≠ b) :
    ∀ q : Queue, (q.map (fun e => e.mid)).Nodup → ea ∈ q → ea.mid = a →
      [a, b].Sublist (q.map (fun e => e.mid)) → ea ∈ earlierEntries q b := by
  intro q
  induction q with
  | nil =>
    intro _ hea
    cases hea
  | cons e rest ih =>
    intro hnd hea hamid hab
    have hndrest : (rest.map (fun e => e.mid)).Nodup := (List.nodup_cons.mp hnd).2
    have hheadnot : e.mid ∉ rest.map (fun e => e.mid) := (List.nodup_cons.mp hnd).1
    by_cases hb : e.mid = b
    · exfalso
      rw [List.map_cons, hb] at hab
      cases hab with
      | cons _ hab' =>
        exact hheadnot (by rw [hb]; exact hab'.subset (by simp))
      | cons₂ _ hab' =>
        exact hne rfl
    · have hpred : (e.mid != b) = true := by simpa using hb
      rcases List.mem_cons.mp hea with rfl | hea'
      · unfold earlierEntries
        rw [List.takeWhile_cons, if_pos hpred]
        exact List.mem_cons_self _ _
      · have hamn : e.mid ≠ a := by
          intro h
          exact hheadnot (h ▸ (List.mem_map.mpr ⟨ea, hea', hamid⟩))
        have hab' : [a, b].Sublist (rest.map (fun e => e.mid)) := by
          rw [List.map_cons] at hab
          cases hab with
          | cons _ h => exact h
          | cons₂ _ h => exact absurd rfl hamn
        unfold earlierEntries
        rw [List.takeWhile_cons, if_pos hpred]
        exact List.mem_cons_of_mem _ (ih hndrest hea' hamid hab')

/-- A uuid submitted once carries a unique agent type. -/
theorem submit_qtype_unique :
    ∀ (ps : List (Nat × String)) (m : Nat) (t t' : String),
      (ps.map (fun p => p.1)).Nodup → (m, t) ∈ ps → (m, t') ∈ ps → t = t' := by
  intro ps
  induction ps with
  | nil =>
    intro m t t' _ h
    cases h
  | cons p rest ih =>
    intro m t t' hnd h1 h2
    have hheadnot : p.1 ∉ rest.map (fun p => p.1) := (List.nodup_cons.mp hnd).1
    have hndrest := (List.nodup_cons.mp hnd).2
    rcases List.mem_cons.mp h1 with h1h | h1'
    · rcases List.mem_cons.mp h2 with h2h | h2'
      · rw [← h1h] at h2h
        injection h2h with _ h
        exact h.symm
      · exfalso
        apply hheadnot
        rw [← h1h]
        exact List.mem_map.mpr ⟨(m, t'), h2', rfl⟩
    · rcases List.mem_cons.mp h2 with h2h | h2'
      · exfalso
        apply hheadnot
        rw [← h2h]
        exact List.mem_map.mpr ⟨(m, t), h1', rfl⟩
      · exact ih m t t' hndrest h1' h2'

/-- Claim C2: in every legal run of the message queue, when a submission
`b` starts, every earlier same-type submission `a` has already been marked
finished (so same-type submissions are serialized FIFO: `a` finishes before
`b` starts); and the eligibility check never waits on entries of a
different agent type. -/
theorem message_queue_per_type_fifo :
    (∀ (tr : List QEvent) (s : QState) (a b : Nat) (t : String)
      (l₁ l₂ : List QEvent),
      runQ initQ tr = some s →
      [a, b].Sublist (submitMids tr) →
      (a, t) ∈ submitsOf tr → (b, t) ∈ submitsOf tr →
      tr = l₁ ++ QEvent.start b :: l₂ →
      QEvent.finishMark a ∈ l₁) ∧
    (∀ (q : Queue) (mid : Nat) (cur : QEntry),
      q.find? (fun e => e.mid == mid) = some cur →
      (∀ e ∈ earlierEntries q mid, e.qtype = cur.qtype → e.finished = true) →
      check_if_earlier_requests_are_finished q mid = true) := by
  constructor
  · intro tr s a b t l₁ l₂ hrun hab hat hbt hsplit
    subst hsplit
    -- full-run invariant: submissions are distinct
    have hinvfull := QInv_of_run _ s hrun
    have hndtr : (submitMids (l₁ ++ QEvent.start b :: l₂)).Nodup := by
      rw [← hinvfull.1]
      exact hinvfull.2.1
    -- cut the run at the start event
    rw [runQ_append] at hrun
    match hrun1 : runQ initQ l₁ with
    | none =>
      rw [hrun1] at hrun
      exact absurd hrun (by simp)
    | some s₁ =>
      rw [hrun1] at hrun
      simp only [runQ] at hrun
      match hstep : qStep s₁ (QEvent.start b) with
      | none =>
        rw [hstep] at hrun
        exact absurd hrun (by simp)
      | some s₂ =>
        have hinv₁ := QInv_of_run _ s₁ hrun1
        obtain ⟨hA, hB, hC, hD, hE, hF⟩ := hinv₁
        -- unpack the start step
        simp only [qStep] at hstep
        split at hstep
        next hfind => exact absurd hstep (by simp)
        next cur hfind =>
          split at hstep
          case isFalse => exact absurd hstep (by simp)
          case isTrue hg =>
            obtain ⟨hg1, hg2, hg3⟩ := hg
            have hcurmem : cur ∈ s₁.queue := List.mem_of_find?_eq_some hfind
            have hcurmid : cur.mid = b := by simpa using List.find?_some hfind
            have hbinq : b ∈ s₁.queue.map (fun e => e.mid) :=
              List.mem_map.mpr ⟨cur, hcurmem, hcurmid⟩
            have hbused : b ∈ s₁.used := hC.subset hbinq
            have hmidsplit : submitMids (l₁ ++ QEvent.start b :: l₂) =
                submitMids l₁ ++ submitMids l₂ := by
              have : submitsOf (l₁ ++ QEvent.start b :: l₂) =
                  submitsOf l₁ ++ submitsOf l₂ := by
                rw [submitsOf_append]
                rfl
              simp [submitMids, this]
            have hbl₁ : b ∈ submitMids l₁ := by rw [← hA]; exact hbused
            have hab' : [a, b].Sublist (submitMids l₁) := by
              apply pair_sublist_left a b (submitMids l₁) (submitMids l₂)
              · rw [← hmidsplit]; exact hab
              · exact hbl₁
              · rw [← hmidsplit]; exact hndtr
            have hane : a ≠ b := by
              have : ([a, b] : List Nat).Nodup := hndtr.sublist hab
              simpa using (List.nodup_cons.mp this).1
            have hal₁ : a ∈ submitMids l₁ := hab'.subset (by simp)
            have hsubl₁ : ∀ p, p ∈ submitsOf l₁ →
                p ∈ submitsOf (l₁ ++ QEvent.start b :: l₂) := by
              intro p hp
              rw [submitsOf_append]
              exact List.mem_append_left _ hp
            have hndpairs : ((submitsOf (l₁ ++ QEvent.start b :: l₂)).map
                (fun p => p.1)).Nodup := hndtr
            by_cases haq : a ∈ s₁.queue.map (fun e => e.mid)
            · -- a is still queued: it appears before b and the check forces it finished
              obtain ⟨ea, heaq, heamid⟩ := List.mem_map.mp haq
              have hndq : (s₁.queue.map (fun e => e.mid)).Nodup := hB.sublist hC
              have habq : [a, b].Sublist (s₁.queue.map (fun e => e.mid)) := by
                apply pair_sublist_of_sublist a b hC hB
                · rw [hA]; exact hab'
                · exact haq
                · exact hbinq
              have heaearly : ea ∈ earlierEntries s₁.queue b :=
                mem_earlier_of_pair_sublist a b ea hane s₁.queue hndq heaq heamid habq
              have hcheck := hg3
              unfold check_if_earlier_requests_are_finished at hcheck
              rw [hfind, List.all_eq_true] at hcheck
              have hcond := hcheck ea heaearly
              have heat : ea.qtype = t :=
                submit_qtype_unique _ a ea.qtype t hndpairs
                  (heamid ▸ hsubl₁ _ (hD ea heaq)) hat
              have hcurt : cur.qtype = t :=
                submit_qtype_unique _ b cur.qtype t hndpairs
                  (hcurmid ▸ hsubl₁ _ (hD cur hcurmem)) hbt
              have hsame : (ea.qtype != cur.qtype) = false := by
                rw [heat, hcurt]
                simp
              rw [hsame] at hcond
              simp only [Bool.false_or] at hcond
              have := hE ea heaq hcond
              rw [heamid] at this
              exact this
            · -- a already left the queue, hence finished earlier
              have : ∀ e ∈ s₁.queue, e.mid ≠ a := by
                intro e he h
                exact haq (List.mem_map.mpr ⟨e, he, h⟩)
              exact hF a (by rw [hA]; exact hal₁) this
  · intro q mid cur hfind hsame
    unfold check_if_earlier_requests_are_finished
    rw [hfind, List.all_eq_true]
    intro e he
    by_cases h : e.qtype = cur.qtype
    · rw [hsame e he h]
      simp
    · have : (e.qtype != cur.qtype) = true := by simpa using h
      rw [this]
      simp


/-- A concrete queue run for the C2 witness: two chat submissions in
sequence, the first fully completed before the second starts. -/
def c2Trace : List QEvent :=
  [.submit 10 "chat", .start 10, .finishMark 10, .submit 11 "chat", .start 11]

/-- The prefix of `c2Trace` before the second start. -/
def c2Head : List QEvent :=
  [.submit 10 "chat", .start 10, .finishMark 10, .submit 11 "chat"]

/-- Witness for C2: on the concrete trace the theorem places the first
submission's finish before the second's start, and a queued entry whose
only earlier entry has a different agent type passes the eligibility check
even though that entry is unfinished. -/
theorem message_queue_per_type_fifo_witness :
    runQ initQ c2Trace =
      some ⟨[⟨10, "chat", true, true⟩, ⟨11, "chat", true, false⟩], [10, 11]⟩ ∧
    [10, 11].Sublist (submitMids c2Trace) ∧
    ((10 : Nat), "chat") ∈ submitsOf c2Trace ∧
    ((11 : Nat), "chat") ∈ submitsOf c2Trace ∧
    c2Trace = c2Head ++ QEvent.start 11 :: [] ∧
    QEvent.finishMark 10 ∈ c2Head ∧
    ([(⟨1, "chat", true, false⟩ : QEntry), ⟨2, "meta_memory", false, false⟩] :
        Queue).find? (fun e => e.mid == 2) = some ⟨2, "meta_memory", false, false⟩ ∧
    check_if_earlier_requests_are_finished
      [⟨1, "chat", true, false⟩, ⟨2, "meta_memory", false, false⟩] 2 = true :=
  ⟨by decide, List.Sublist.refl _, by decide, by decide, rfl,
    message_queue_per_type_fifo.1 c2Trace
      ⟨[⟨10, "chat", true, true⟩, ⟨11, "chat", true, false⟩], [10, 11]⟩
      10 11 "chat" c2Head [] (by decide) (List.Sublist.refl _) (by decide) (by decide) rfl,
    by decide,
    message_queue_per_type_fifo.2
      [⟨1, "chat", true, false⟩, ⟨2, "meta_memory", false, false⟩] 2
      ⟨2, "meta_memory", false, false⟩ (by decide) (by decide)⟩

end Mirix
